import Mathlib

/-!
Verification of the anomi per-symbol order-book layer.

The repository splits into two parts:

* `core/orderbook` (book.go, cache.go, receipt.go) — present in the sources;
  its `AddOrder` / `RemoveOrder` / `BuyerCache` logic is translated below
  line by line.
* `core/orderbook/engine` — the matching core.  Its source file is not part
  of the source tree we were given (only its callers and tests are), so the
  engine is modelled from the specification, §4.4 "MatchingCore" and
  §4.5 "OrderBook": price/time priority matching with self-match guard,
  TIF handling (GTC rests, IOC discards, FOK is all-or-nothing), and
  `Done{processed, left, stored, trades}` reports.

Decimals (`fpdecimal.Decimal`, a 64-bit integer scaled by 10^8) are modelled
as unbounded `Int`; none of the verified claims exercises overflow.
-/

namespace Anomi

/-- Modelled from the spec: order side (§3 "Side: {Buy, Sell}"). -/
inductive Side where
  | buy
  | sell
  deriving DecidableEq, Repr

/-- Modelled from the spec: order kind (§3).  The engine source is not in
the tree; stop-limit orders and quote-denominated market orders are marked
ambiguous or implicit by the spec itself (§9) and are not exercised by any
claim, so the modelled fragment has market and limit orders. -/
inductive OrderKind where
  | market
  | limit
  deriving DecidableEq, Repr

/-- Modelled from the spec: time in force for limit orders (§3). -/
inductive TIF where
  | gtc
  | ioc
  | fok
  deriving DecidableEq, Repr

/-- Modelled from the spec: maker/taker role (§3). -/
inductive Role where
  | maker
  | taker
  deriving DecidableEq, Repr

/-- Modelled from the spec: `engine.Order` (§3 "Order").  Quantities and
prices are fixed-point decimals, modelled as scaled integers. -/
structure Order where
  id : String
  userId : String
  side : Side
  kind : OrderKind
  tif : TIF
  price : Int
  qtyOriginal : Int
  qtyRemaining : Int
  canceled : Bool
  deriving DecidableEq, Repr

/-- Modelled from the spec: `engine.NewLimitOrder`. -/
def newLimitOrder (id : String) (side : Side) (qty price : Int) (tif : TIF)
    (userId : String) : Order :=
  { id := id, userId := userId, side := side, kind := .limit, tif := tif,
    price := price, qtyOriginal := qty, qtyRemaining := qty, canceled := false }

/-- Modelled from the spec: `engine.NewMarketOrder` (market orders are
implicitly IOC, §3). -/
def newMarketOrder (id : String) (side : Side) (qty : Int)
    (userId : String) : Order :=
  { id := id, userId := userId, side := side, kind := .market, tif := .ioc,
    price := 0, qtyOriginal := qty, qtyRemaining := qty, canceled := false }

/-- Modelled from the spec: `engine.TradeOrder` (§3 "Trade"): one entry per
matched side, at the maker price. -/
structure TradeOrder where
  orderId : String
  userId : String
  role : Role
  price : Int
  isQuote : Bool
  quantity : Int
  deriving DecidableEq, Repr

/-- Modelled from the spec: `engine.Done` (§3 "Done").  The `partial` and
`partial_quantity_processed` fields are derived from `processed`/`left`
and are not read by any code under verification, so they are omitted. -/
structure Done where
  processed : Int
  left : Int
  stored : Bool
  trades : List TradeOrder
  deriving DecidableEq, Repr

/-- Modelled from the spec: the engine-level book, two price-time ordered
side books (§3 "SideBook"); best order first, FIFO within a price. -/
structure EngineBook where
  bids : List Order
  asks : List Order
  deriving DecidableEq, Repr

/-- Modelled from the spec: submission rejection kinds (§4.5 step 1, §7). -/
inductive ProcErr where
  | orderCanceled
  | invalidQuantity
  | duplicateId
  deriving DecidableEq, Repr

deriving instance DecidableEq for Except

/-- Sum of trade quantities. -/
def sumQty (ts : List TradeOrder) : Int :=
  ts.foldr (fun t acc => t.quantity + acc) 0

/-- Modelled from the spec (§4.4 step 3a): whether the best opposing price
is acceptable to the taker (market orders accept any price). -/
def priceOk (taker maker : Order) : Bool :=
  match taker.kind with
  | .market => true
  | .limit =>
    match taker.side with
    | .buy => decide (maker.price ≤ taker.price)
    | .sell => decide (taker.price ≤ maker.price)

/-- Modelled from the spec (§4.4 step 3): the matching loop.  Walks the
opposing side book; pops canceled makers, pops-and-cancels self-match
makers (§4.4 step 3c), otherwise fills `min(remaining, maker.remaining)`
emitting a maker and a taker trade entry at the maker price.  Returns the
unfilled remainder, the trades in emission order, and the surviving
opposing book. -/
def matchLoop (taker : Order) : Int → List Order → Int × List TradeOrder × List Order
  | remaining, [] => (remaining, [], [])
  | remaining, maker :: rest =>
    if remaining ≤ 0 then (remaining, [], maker :: rest)
    else if ¬ priceOk taker maker then (remaining, [], maker :: rest)
    else if maker.canceled then matchLoop taker remaining rest
    else if maker.userId = taker.userId then
      -- self-match guard: pop the maker and cancel it, record no trade
      matchLoop taker remaining rest
    else
      let fill := min remaining maker.qtyRemaining
      let mt : TradeOrder :=
        { orderId := maker.id, userId := maker.userId, role := .maker,
          price := maker.price, isQuote := false, quantity := fill }
      let tt : TradeOrder :=
        { orderId := taker.id, userId := taker.userId, role := .taker,
          price := maker.price, isQuote := false, quantity := fill }
      if maker.qtyRemaining ≤ remaining then
        let res := matchLoop taker (remaining - fill) rest
        (res.1, mt :: tt :: res.2.1, res.2.2)
      else
        (0, [mt, tt], { maker with qtyRemaining := maker.qtyRemaining - fill } :: rest)

/-- Modelled from the spec (§4.4 step 4, FOK): liquidity available to the
taker on the opposing book — non-canceled, price-acceptable, non-self
makers. -/
def availableTo (taker : Order) (opp : List Order) : Int :=
  (opp.filter (fun m =>
    ¬ m.canceled ∧ priceOk taker m ∧ m.userId ≠ taker.userId)).foldr
    (fun m acc => m.qtyRemaining + acc) 0

/-- Modelled from the spec (§4.3): insert a resting bid keeping bids in
descending price order, FIFO within a price (insert before the first
strictly worse price). -/
def insertBid (o : Order) : List Order → List Order
  | [] => [o]
  | b :: rest =>
    if b.price < o.price then o :: b :: rest
    else b :: insertBid o rest

/-- Modelled from the spec (§4.3): insert a resting ask keeping asks in
ascending price order, FIFO within a price. -/
def insertAsk (o : Order) : List Order → List Order
  | [] => [o]
  | a :: rest =>
    if o.price < a.price then o :: a :: rest
    else a :: insertAsk o rest

/-- Opposing side book of a taker. -/
def EngineBook.opposing (b : EngineBook) (s : Side) : List Order :=
  match s with
  | .buy => b.asks
  | .sell => b.bids

/-- Replace the opposing side book. -/
def EngineBook.setOpposing (b : EngineBook) (s : Side) (l : List Order) : EngineBook :=
  match s with
  | .buy => { b with asks := l }
  | .sell => { b with bids := l }

/-- Insert a residual order into its own side book. -/
def EngineBook.insertOwn (b : EngineBook) (o : Order) : EngineBook :=
  match o.side with
  | .buy => { b with bids := insertBid o b.bids }
  | .sell => { b with asks := insertAsk o b.asks }

/-- All resting orders of the book. -/
def EngineBook.allOrders (b : EngineBook) : List Order :=
  b.bids ++ b.asks

/-- Modelled from the spec (§4.5 `get`): read-only lookup of a resting
order. -/
def EngineBook.getOrder (b : EngineBook) (id : String) : Option Order :=
  b.allOrders.find? (fun o => o.id = id)

/-- Modelled from the spec (§4.5 `process`, §4.4): validate, run the
matching loop, then settle the taker residual by TIF — market and limit
IOC discard it, limit FOK is all-or-nothing via a dry-run liquidity sum,
limit GTC rests the remainder on its own side. -/
def EngineBook.process (b : EngineBook) (o : Order) :
    Except ProcErr (Done × EngineBook) :=
  if o.canceled then .error .orderCanceled
  else if o.qtyOriginal ≤ 0 then .error .invalidQuantity
  else if b.allOrders.any (fun r => r.id = o.id) then .error .duplicateId
  else
    match o.kind with
    | .market =>
      let res := matchLoop o o.qtyRemaining (b.opposing o.side)
      .ok ({ processed := o.qtyOriginal - res.1, left := res.1,
             stored := false, trades := res.2.1 },
           b.setOpposing o.side res.2.2)
    | .limit =>
      if o.tif = .fok ∧ availableTo o (b.opposing o.side) < o.qtyRemaining then
        .ok ({ processed := 0, left := o.qtyRemaining, stored := false,
               trades := [] }, b)
      else
        let res := matchLoop o o.qtyRemaining (b.opposing o.side)
        let b' := b.setOpposing o.side res.2.2
        if o.tif = .gtc ∧ 0 < res.1 then
          .ok ({ processed := o.qtyOriginal - res.1, left := res.1,
                 stored := true, trades := res.2.1 },
               b'.insertOwn { o with qtyRemaining := res.1 })
        else
          .ok ({ processed := o.qtyOriginal - res.1, left := res.1,
                 stored := false, trades := res.2.1 }, b')

/-- Modelled from the spec (§4.5 `cancel`): locate the order, mark it
canceled and remove it from its price level; `none` when absent. -/
def EngineBook.cancelOrder (b : EngineBook) (id : String) :
    Option Order × EngineBook :=
  match b.allOrders.find? (fun o => o.id = id) with
  | none => (none, b)
  | some o =>
    (some { o with canceled := true },
     { bids := b.bids.filter (fun r => r.id ≠ id),
       asks := b.asks.filter (fun r => r.id ≠ id) })

/-! ## BuyerCache (translated from cache.go)

`BuyerCache` wraps `hashicorp/golang-lru`:
* `Get` moves a hit to the most-recently-used position,
* `Add` inserts or updates at the most-recently-used position and evicts
  the least-recently-used entry when the size exceeds the capacity,
* `Remove` deletes.

The LRU is embedded as an association list ordered most-recently-used
first; eviction drops the last element. -/

/-- Translated from cache.go: `BuyerPos` — the original limit order, the
trades that have filled it so far, and the remaining quantity. -/
structure BuyerPos where
  order : Order
  trades : List TradeOrder
  left : Int
  deriving DecidableEq, Repr

/-- The LRU contents: most-recently-used first. -/
abbrev Cache := List (String × BuyerPos)

/-- Pure key lookup (no recency update). -/
def cacheLookup (c : Cache) (id : String) : Option BuyerPos :=
  (c.find? (fun e => e.1 = id)).map (·.2)

/-- Remove every entry with the given key. -/
def cacheRemoveKey (c : Cache) (id : String) : Cache :=
  c.filter (fun e => e.1 ≠ id)

/-- Translated from cache.go `BuyerCache.Get` via `lru.Cache.Get`: returns
the entry and moves a hit to the most-recently-used position. -/
def cacheGet (c : Cache) (id : String) : Option BuyerPos × Cache :=
  match cacheLookup c id with
  | none => (none, c)
  | some pos => (some pos, (id, pos) :: cacheRemoveKey c id)

/-- Translated from cache.go `BuyerCache.Set` via `lru.Cache.Add`: insert
or update at the most-recently-used position, evicting the oldest entry
when the size exceeds the capacity. -/
def cacheSet (cap : Nat) (c : Cache) (id : String) (pos : BuyerPos) : Cache :=
  if cap < ((id, pos) :: cacheRemoveKey c id).length then
    ((id, pos) :: cacheRemoveKey c id).dropLast
  else (id, pos) :: cacheRemoveKey c id

/-! ## OrderBook (translated from book.go) -/

/-- Translated from book.go: `orderbook.OrderBook` — the embedded engine
book, the buyer cache and its capacity, and the symbol assets. -/
structure OrderBook where
  engine : EngineBook
  bc : Cache
  bcCap : Nat
  base : String
  quote : String
  deriving DecidableEq, Repr

/-- Translated from book.go `NewOrderBook` (with an allowed asset pair):
empty engine book and an empty cache of the requested capacity
(`BCSIZE = 50000` when the requested size is zero). -/
def mkOrderBook (base quote : String) (bcSize : Nat) : OrderBook :=
  { engine := { bids := [], asks := [] }, bc := [],
    bcCap := if bcSize = 0 then 50000 else bcSize,
    base := base, quote := quote }

/-- Translated from book.go: `Receipt`. -/
structure Receipt where
  userID : String
  orderID : String
  trades : List TradeOrder
  filledQty : Int
  deriving DecidableEq, Repr

/-- One step of the book.go Case 1 (BUY LIMIT) loop over `done.Trades`:
trades matched against a seller (`trade.OrderID != order.ID()`) are
appended to the position and subtracted from `Left`. -/
def buyPosStep (oid : String) (p : BuyerPos) (t : TradeOrder) : BuyerPos :=
  if t.orderId ≠ oid then
    { p with trades := p.trades ++ [t], left := p.left - t.quantity }
  else p

/-- One step of the book.go Case 2 (SELL) loop over `done.Trades`: a trade
whose maker id is cached is appended to that maker position; when `Left`
drops to zero or below the entry is removed and a receipt for the resting
buyer is emitted. -/
def sellStep (cap : Nat) (acc : Cache × List Receipt) (t : TradeOrder) :
    Cache × List Receipt :=
  let g := cacheGet acc.1 t.orderId
  match g.1 with
  | none => (g.2, acc.2)
  | some mp =>
    let mp' : BuyerPos :=
      { mp with trades := mp.trades ++ [t], left := mp.left - t.quantity }
    if 0 < mp'.left then (cacheSet cap g.2 t.orderId mp', acc.2)
    else
      (cacheRemoveKey g.2 t.orderId,
       acc.2 ++ [{ userID := mp.order.userId, orderID := mp.order.id,
                   trades := mp'.trades, filledQty := mp.order.qtyOriginal }])

/-- Translated from book.go `OrderBook.AddOrder`: run the engine, then
Case 0 (BUY MARKET — always one taker receipt for `done.Processed`),
Case 1 (BUY LIMIT — accumulate into the buyer cache, emitting the single
coalesced receipt when `Left` reaches zero), Case 2 (SELL — update each
cached maker position hit by the trades).  The engine error path returns
the book unchanged. -/
def OrderBook.addOrder (ob : OrderBook) (o : Order) :
    Except ProcErr (Done × List Receipt) × OrderBook :=
  match ob.engine.process o with
  | .error e => (.error e, ob)
  | .ok (done, eng') =>
    if o.side = .buy ∧ o.kind = .market then
      (.ok (done, [{ userID := o.userId, orderID := o.id,
                     trades := done.trades, filledQty := done.processed }]),
       { ob with engine := eng' })
    else if o.side = .buy ∧ o.kind = .limit then
      let g := cacheGet ob.bc o.id
      let pos := g.1.getD { order := o, trades := [], left := o.qtyOriginal }
      let pos' := done.trades.foldl (buyPosStep o.id) pos
      if 0 < pos'.left then
        (.ok (done, []),
         { ob with engine := eng', bc := cacheSet ob.bcCap g.2 o.id pos' })
      else
        (.ok (done, [{ userID := o.userId, orderID := o.id,
                       trades := pos'.trades, filledQty := o.qtyOriginal }]),
         { ob with engine := eng', bc := cacheRemoveKey g.2 o.id })
    else
      let r := done.trades.foldl (sellStep ob.bcCap) (ob.bc, [])
      (.ok (done, r.2), { ob with engine := eng', bc := r.1 })

/-- Translated from book.go `OrderBook.RemoveOrder`: a cached position
whose `Left` differs from the order's original quantity is a partial fill
in flight — refuse the cancellation; otherwise drop the cache entry and
cancel the order in the engine. -/
def OrderBook.removeOrder (ob : OrderBook) (id : String) :
    Except Unit (Option Order) × OrderBook :=
  let g := cacheGet ob.bc id
  match g.1 with
  | some pos =>
    if ¬ (pos.left = pos.order.qtyOriginal) then
      (.error (), { ob with bc := g.2 })
    else
      let r := ob.engine.cancelOrder id
      (.ok r.1, { ob with engine := r.2, bc := cacheRemoveKey g.2 id })
  | none =>
    let r := ob.engine.cancelOrder id
    (.ok r.1, { ob with engine := r.2, bc := cacheRemoveKey g.2 id })

/-- A client-visible operation on one order book (the quantified alphabet
of the invariant claims). -/
inductive BookOp where
  | add (o : Order)
  | remove (id : String)
  deriving DecidableEq, Repr

/-- State reached after one operation. -/
def OrderBook.applyOp (ob : OrderBook) : BookOp → OrderBook
  | .add o => (ob.addOrder o).2
  | .remove id => (ob.removeOrder id).2

/-- State reached after a sequence of operations. -/
def OrderBook.applyOps (ob : OrderBook) (ops : List BookOp) : OrderBook :=
  ops.foldl OrderBook.applyOp ob

/-! ## Cache lemmas -/

@[simp]
theorem sumQty_nil : sumQty [] = 0 := rfl

@[simp]
theorem sumQty_cons (t : TradeOrder) (ts : List TradeOrder) :
    sumQty (t :: ts) = t.quantity + sumQty ts := rfl

@[simp]
theorem sumQty_append (ts us : List TradeOrder) :
    sumQty (ts ++ us) = sumQty ts + sumQty us := by
  induction ts with
  | nil => simp
  | cons t ts ih => simp [ih]; ring

theorem cacheLookup_mem {c : Cache} {id : String} {pos : BuyerPos}
    (h : cacheLookup c id = some pos) : (id, pos) ∈ c := by
  unfold cacheLookup at h
  cases hf : c.find? (fun e => e.1 = id) with
  | none => simp [hf] at h
  | some e =>
    simp only [hf, Option.map_some] at h
    have h1 := List.find?_some hf
    have h2 := List.mem_of_find?_eq_some hf
    simp only [decide_eq_true_eq] at h1
    have : e = (id, pos) := by
      cases e; cases h; cases h1; rfl
    rwa [this] at h2

theorem mem_cacheRemoveKey {c : Cache} {id : String} {e : String × BuyerPos}
    (h : e ∈ cacheRemoveKey c id) : e ∈ c :=
  List.mem_of_mem_filter h

theorem mem_cacheSet {cap : Nat} {c : Cache} {id : String} {pos : BuyerPos}
    {e : String × BuyerPos} (h : e ∈ cacheSet cap c id pos) :
    e = (id, pos) ∨ e ∈ c := by
  unfold cacheSet at h
  split at h
  · have h' := List.dropLast_subset _ h
    rcases List.mem_cons.mp h' with rfl | h''
    · exact Or.inl rfl
    · exact Or.inr (mem_cacheRemoveKey h'')
  · rcases List.mem_cons.mp h with rfl | h''
    · exact Or.inl rfl
    · exact Or.inr (mem_cacheRemoveKey h'')

theorem cacheGet_fst (c : Cache) (id : String) :
    (cacheGet c id).1 = cacheLookup c id := by
  unfold cacheGet
  cases h : cacheLookup c id <;> simp

theorem mem_cacheGet_snd {c : Cache} {id : String} {e : String × BuyerPos}
    (h : e ∈ (cacheGet c id).2) : e ∈ c := by
  unfold cacheGet at h
  cases hl : cacheLookup c id with
  | none => rw [hl] at h; exact h
  | some pos =>
    rw [hl] at h
    rcases List.mem_cons.mp h with rfl | h'
    · exact cacheLookup_mem hl
    · exact mem_cacheRemoveKey h'

@[simp]
theorem cacheLookup_nil (j : String) : cacheLookup [] j = none := rfl

theorem cacheLookup_cons (e : String × BuyerPos) (c : Cache) (j : String) :
    cacheLookup (e :: c) j = if e.1 = j then some e.2 else cacheLookup c j := by
  unfold cacheLookup
  by_cases h : e.1 = j
  · rw [List.find?_cons_of_pos _ (by simp [h])]
    simp [h]
  · rw [List.find?_cons_of_neg _ (by simp [h])]
    simp [h]

theorem cacheRemoveKey_cons (e : String × BuyerPos) (c : Cache) (id : String) :
    cacheRemoveKey (e :: c) id =
      if e.1 = id then cacheRemoveKey c id else e :: cacheRemoveKey c id := by
  unfold cacheRemoveKey
  by_cases h : e.1 = id <;> simp [List.filter_cons, h]

theorem cacheLookup_removeKey (c : Cache) (id j : String) :
    cacheLookup (cacheRemoveKey c id) j =
      if j = id then none else cacheLookup c j := by
  induction c with
  | nil => simp [cacheRemoveKey]
  | cons e c ih =>
    rw [cacheRemoveKey_cons]
    by_cases he : e.1 = id
    · rw [if_pos he, ih]
      by_cases hj : j = id
      · simp [hj]
      · rw [if_neg hj, if_neg hj, cacheLookup_cons,
          if_neg (fun h : e.1 = j => hj (h.symm.trans he))]
    · rw [if_neg he, cacheLookup_cons, ih]
      by_cases hej : e.1 = j
      · rw [if_pos hej, if_neg (fun h : j = id => he (hej.trans h)),
          cacheLookup_cons, if_pos hej]
      · rw [if_neg hej, cacheLookup_cons]
        by_cases hj : j = id
        · simp [hj]
        · simp [hj, hej]

theorem cacheLookup_get_snd (c : Cache) (id j : String) :
    cacheLookup (cacheGet c id).2 j = cacheLookup c j := by
  unfold cacheGet
  cases hl : cacheLookup c id with
  | none => rfl
  | some pos =>
    simp only
    rw [cacheLookup_cons, cacheLookup_removeKey]
    by_cases hj : id = j
    · subst hj
      rw [if_pos rfl]
      exact hl.symm
    · rw [if_neg hj, if_neg (fun h : j = id => hj h.symm)]

theorem getOrder_cancelOrder_snd (b : EngineBook) (id : String) :
    (b.cancelOrder id).2.getOrder id = none := by
  unfold EngineBook.cancelOrder
  cases hf : b.allOrders.find? (fun o => o.id = id) with
  | none =>
    simp only
    unfold EngineBook.getOrder
    exact hf
  | some o =>
    simp only
    unfold EngineBook.getOrder EngineBook.allOrders
    rw [List.find?_eq_none]
    intro x hx
    simp only [List.mem_append, List.mem_filter] at hx
    rcases hx with ⟨_, hx⟩ | ⟨_, hx⟩ <;> simpa using hx

/-! ## Claim C1: cache coherence -/

/-- The coherence equation of one buyer position: the remaining quantity
is the original quantity minus everything traded so far. -/
def PosCoherent (p : BuyerPos) : Prop :=
  p.left = p.order.qtyOriginal - sumQty p.trades

/-- Every cached entry is coherent and has a strictly positive remainder. -/
def CacheCoherent (c : Cache) : Prop :=
  ∀ e ∈ c, PosCoherent e.2 ∧ 0 < e.2.left

theorem posCoherent_buyPosStep {oid : String} {p : BuyerPos} {t : TradeOrder}
    (h : PosCoherent p) : PosCoherent (buyPosStep oid p t) := by
  unfold buyPosStep PosCoherent at *
  split
  · simp only [sumQty_append, sumQty_cons, sumQty_nil]
    omega
  · exact h

theorem posCoherent_foldl_buyPosStep {oid : String} {ts : List TradeOrder}
    {p : BuyerPos} (h : PosCoherent p) :
    PosCoherent (ts.foldl (buyPosStep oid) p) := by
  induction ts generalizing p with
  | nil => exact h
  | cons t ts ih => exact ih (posCoherent_buyPosStep h)

theorem cacheCoherent_get_snd {c : Cache} {id : String} (h : CacheCoherent c) :
    CacheCoherent (cacheGet c id).2 :=
  fun e he => h e (mem_cacheGet_snd he)

theorem cacheCoherent_removeKey {c : Cache} {id : String} (h : CacheCoherent c) :
    CacheCoherent (cacheRemoveKey c id) :=
  fun e he => h e (mem_cacheRemoveKey he)

theorem cacheCoherent_set {cap : Nat} {c : Cache} {id : String} {pos : BuyerPos}
    (h : CacheCoherent c) (hp : PosCoherent pos) (hl : 0 < pos.left) :
    CacheCoherent (cacheSet cap c id pos) := by
  intro e he
  rcases mem_cacheSet he with rfl | he'
  · exact ⟨hp, hl⟩
  · exact h e he'

theorem cacheCoherent_sellStep {cap : Nat} {acc : Cache × List Receipt}
    {t : TradeOrder} (h : CacheCoherent acc.1) :
    CacheCoherent (sellStep cap acc t).1 := by
  unfold sellStep
  cases hl : cacheLookup acc.1 t.orderId with
  | none =>
    simp only [cacheGet_fst, hl]
    exact cacheCoherent_get_snd h
  | some mp =>
    have hmem := cacheLookup_mem hl
    have hmp := h _ hmem
    simp only at hmp
    simp only [cacheGet_fst, hl]
    split
    · refine cacheCoherent_set (cacheCoherent_get_snd h) ?_ (by assumption)
      have hc := hmp.1
      unfold PosCoherent at *
      simp only [sumQty_append, sumQty_cons, sumQty_nil]
      omega
    · exact cacheCoherent_removeKey (cacheCoherent_get_snd h)

theorem cacheCoherent_foldl_sellStep {cap : Nat} {ts : List TradeOrder}
    {acc : Cache × List Receipt} (h : CacheCoherent acc.1) :
    CacheCoherent (ts.foldl (sellStep cap) acc).1 := by
  induction ts generalizing acc with
  | nil => exact h
  | cons t ts ih => exact ih (cacheCoherent_sellStep h)

theorem cacheCoherent_addOrder {ob : OrderBook} {o : Order}
    (h : CacheCoherent ob.bc) : CacheCoherent (ob.addOrder o).2.bc := by
  unfold OrderBook.addOrder
  cases hp : ob.engine.process o with
  | error e => exact h
  | ok r =>
    obtain ⟨done, eng'⟩ := r
    simp only
    split
    · exact h
    · split
      · -- BUY LIMIT branch
        have hpos : PosCoherent
            ((cacheGet ob.bc o.id).1.getD
              { order := o, trades := [], left := o.qtyOriginal }) := by
          rw [cacheGet_fst]
          cases hl : cacheLookup ob.bc o.id with
          | none => simp [PosCoherent]
          | some p => simpa using (h _ (cacheLookup_mem hl)).1
        have hpos' := @posCoherent_foldl_buyPosStep o.id done.trades _ hpos
        split
        · exact cacheCoherent_set (cacheCoherent_get_snd h) hpos' (by assumption)
        · exact cacheCoherent_removeKey (cacheCoherent_get_snd h)
      · exact cacheCoherent_foldl_sellStep h

theorem cacheCoherent_removeOrder {ob : OrderBook} {id : String}
    (h : CacheCoherent ob.bc) : CacheCoherent (ob.removeOrder id).2.bc := by
  unfold OrderBook.removeOrder
  cases hl : cacheLookup ob.bc id with
  | none =>
    simp only [cacheGet_fst, hl]
    exact cacheCoherent_removeKey (cacheCoherent_get_snd h)
  | some pos =>
    simp only [cacheGet_fst, hl]
    split
    · exact cacheCoherent_get_snd h
    · exact cacheCoherent_removeKey (cacheCoherent_get_snd h)

theorem cacheCoherent_applyOps {ob : OrderBook} {ops : List BookOp}
    (h : CacheCoherent ob.bc) : CacheCoherent (ob.applyOps ops).bc := by
  induction ops generalizing ob with
  | nil => exact h
  | cons op ops ih =>
    cases op with
    | add o => exact ih (cacheCoherent_addOrder h)
    | remove id => exact ih (cacheCoherent_removeOrder h)

/-- C1 — Cache coherence invariant: after every sequence of `AddOrder` and
`RemoveOrder` calls on one `OrderBook`, every entry still present in the
`BuyerCache` satisfies `Left = Order.OriginalQty() - Σ(Trades.quantity)`
and `Left > 0`. -/
theorem buyerCache_coherence (base quote : String) (bcSize : Nat)
    (ops : List BookOp) (id : String) (pos : BuyerPos)
    (h : cacheLookup ((mkOrderBook base quote bcSize).applyOps ops).bc id = some pos) :
    pos.left = pos.order.qtyOriginal - sumQty pos.trades ∧ 0 < pos.left := by
  have hinit : CacheCoherent (mkOrderBook base quote bcSize).bc := by
    intro e he
    simp [mkOrderBook] at he
  exact cacheCoherent_applyOps hinit _ (cacheLookup_mem h)

/-- The concrete operation sequence used by the C1 witness. -/
def c1ops : List BookOp :=
  [.add (newLimitOrder "B1" .buy 10 100 .gtc "u1"),
   .add (newLimitOrder "S1" .sell 5 100 .gtc "u2")]

/-- The cache entry reached by `c1ops`. -/
def c1pos : BuyerPos :=
  { order := newLimitOrder "B1" .buy 10 100 .gtc "u1",
    trades := [{ orderId := "B1", userId := "u1", role := .maker,
                 price := 100, isQuote := false, quantity := 5 }],
    left := 5 }

/-- Witness for C1 at a concrete run: a resting limit buy partially filled
by one sell leaves a cache entry with `Left = 10 - 5 > 0`. -/
theorem buyerCache_coherence_witness :
    cacheLookup ((mkOrderBook "BTC" "PKR" 0).applyOps c1ops).bc "B1" = some c1pos ∧
      (c1pos.left = c1pos.order.qtyOriginal - sumQty c1pos.trades ∧ 0 < c1pos.left) :=
  ⟨by decide, buyerCache_coherence "BTC" "PKR" 0 c1ops "B1" c1pos (by decide)⟩

/-! ## Claim C3: partial-fill cancellation is refused atomically -/

/-- C3 — For every order id whose `BuyerCache` entry has `Left` strictly
less than the order's original quantity, `RemoveOrder` returns an error
and leaves the engine book and every cache binding unchanged; for every
other id (entry with `Left` equal to the original quantity, or no entry),
`RemoveOrder` succeeds, drops the id from the cache and cancels the order
out of the book. -/
theorem removeOrder_partial_fill_refused (ob : OrderBook) (id : String) :
    (∀ pos : BuyerPos, cacheLookup ob.bc id = some pos →
        pos.left < pos.order.qtyOriginal →
        (ob.removeOrder id).1 = .error () ∧
          (ob.removeOrder id).2.engine = ob.engine ∧
          (∀ j, cacheLookup (ob.removeOrder id).2.bc j = cacheLookup ob.bc j)) ∧
    ((cacheLookup ob.bc id = none ∨
        ∃ pos : BuyerPos, cacheLookup ob.bc id = some pos ∧
          pos.left = pos.order.qtyOriginal) →
      (ob.removeOrder id).1 = .ok (ob.engine.cancelOrder id).1 ∧
        cacheLookup (ob.removeOrder id).2.bc id = none ∧
        (ob.removeOrder id).2.engine.getOrder id = none) := by
  simp only [OrderBook.removeOrder]
  constructor
  · intro pos hl hlt
    rw [cacheGet_fst, hl]
    simp only
    rw [if_pos (by omega)]
    refine ⟨rfl, rfl, ?_⟩
    intro j
    exact cacheLookup_get_snd ob.bc id j
  · intro hcase
    rcases hcase with hl | ⟨pos, hl, heq⟩
    · rw [cacheGet_fst, hl]
      simp only
      refine ⟨by trivial, ?_, getOrder_cancelOrder_snd ob.engine id⟩
      rw [cacheLookup_removeKey]
      simp
    · rw [cacheGet_fst, hl]
      simp only
      rw [if_neg (by simp [heq])]
      refine ⟨by trivial, ?_, getOrder_cancelOrder_snd ob.engine id⟩
      rw [cacheLookup_removeKey]
      simp

/-! ## More cache lemmas: absent keys and exact updates -/

theorem cacheLookup_eq_none_iff {c : Cache} {j : String} :
    cacheLookup c j = none ↔ ∀ e ∈ c, e.1 ≠ j := by
  unfold cacheLookup
  rw [Option.map_eq_none']
  rw [List.find?_eq_none]
  simp

theorem cacheLookup_set_none {cap : Nat} {c : Cache} {id : String}
    {pos : BuyerPos} {j : String} (hne : j ≠ id)
    (h : cacheLookup c j = none) :
    cacheLookup (cacheSet cap c id pos) j = none := by
  rw [cacheLookup_eq_none_iff] at h ⊢
  intro e he
  rcases mem_cacheSet he with rfl | he'
  · exact fun hh => hne hh.symm
  · exact h e he'

theorem cacheLookup_set_self {cap : Nat} {c : Cache} {id : String}
    {pos : BuyerPos} (hcap : 1 ≤ cap) :
    cacheLookup (cacheSet cap c id pos) id = some pos := by
  unfold cacheSet
  split
  · next hlen =>
    cases hrk : cacheRemoveKey c id with
    | nil =>
      rw [hrk] at hlen
      simp at hlen
      omega
    | cons b rest =>
      rw [List.dropLast_cons₂]
      rw [cacheLookup_cons, if_pos rfl]
  · rw [cacheLookup_cons, if_pos rfl]

theorem cacheLookup_none_sellStep {cap : Nat} {acc : Cache × List Receipt}
    {t : TradeOrder} {j : String} (h : cacheLookup acc.1 j = none) :
    cacheLookup (sellStep cap acc t).1 j = none := by
  unfold sellStep
  cases hl : cacheLookup acc.1 t.orderId with
  | none =>
    simp only [cacheGet_fst, hl]
    rw [cacheLookup_get_snd]
    exact h
  | some mp =>
    have hne : j ≠ t.orderId := by
      intro he
      rw [he, hl] at h
      cases h
    simp only [cacheGet_fst, hl]
    split
    · refine cacheLookup_set_none hne ?_
      rw [cacheLookup_get_snd]
      exact h
    · rw [cacheLookup_removeKey, if_neg hne, cacheLookup_get_snd]
      exact h

theorem cacheLookup_none_foldl_sellStep {cap : Nat} {ts : List TradeOrder}
    {acc : Cache × List Receipt} {j : String} (h : cacheLookup acc.1 j = none) :
    cacheLookup (ts.foldl (sellStep cap) acc).1 j = none := by
  induction ts generalizing acc with
  | nil => exact h
  | cons t ts ih => exact ih (cacheLookup_none_sellStep h)

/-- The trades of one `Done` report that were matched against the other
side: book.go Case 1 keeps exactly the trades with
`trade.OrderID != order.ID()`. -/
def tradesAgainst (oid : String) : List TradeOrder → List TradeOrder
  | [] => []
  | t :: ts =>
    if t.orderId ≠ oid then t :: tradesAgainst oid ts
    else tradesAgainst oid ts

@[simp]
theorem tradesAgainst_nil (oid : String) : tradesAgainst oid [] = [] := rfl

theorem tradesAgainst_cons (oid : String) (t : TradeOrder) (ts : List TradeOrder) :
    tradesAgainst oid (t :: ts) =
      if t.orderId ≠ oid then t :: tradesAgainst oid ts
      else tradesAgainst oid ts := rfl

/-- Closed form of the book.go Case 1 fold: the position accumulates
exactly the trades matched against sellers and subtracts their total. -/
theorem foldl_buyPosStep_eq (oid : String) (ts : List TradeOrder) (p : BuyerPos) :
    ts.foldl (buyPosStep oid) p =
      { order := p.order,
        trades := p.trades ++ tradesAgainst oid ts,
        left := p.left - sumQty (tradesAgainst oid ts) } := by
  induction ts generalizing p with
  | nil =>
    cases p
    simp
  | cons t ts ih =>
    rw [List.foldl_cons, ih, tradesAgainst_cons]
    unfold buyPosStep
    by_cases ht : t.orderId ≠ oid
    · rw [if_pos ht, if_pos ht]
      simp only [BuyerPos.mk.injEq, sumQty_cons]
      refine ⟨by trivial, by simp, by omega⟩
    · rw [if_neg ht, if_neg ht]

/-! ## Engine lemma: maker-side trades account for the filled quantity -/

/-- In one matching run whose opposing book contains no order with the
taker's id, the trades not bearing the taker's id (the maker entries) sum
to exactly the quantity the taker got filled. -/
theorem matchLoop_maker_sum (taker : Order) (r : Int) (opp : List Order)
    (h : ∀ m ∈ opp, m.id ≠ taker.id) :
    sumQty (tradesAgainst taker.id (matchLoop taker r opp).2.1) =
      r - (matchLoop taker r opp).1 := by
  induction opp generalizing r with
  | nil =>
    simp [matchLoop]
  | cons maker rest ih =>
    have hmk : maker.id ≠ taker.id := h maker (List.mem_cons_self _ _)
    have htl : ∀ m ∈ rest, m.id ≠ taker.id :=
      fun m hm => h m (List.mem_cons_of_mem _ hm)
    unfold matchLoop
    split
    · simp
    · split
      · simp
      · split
        · exact ih r htl
        · split
          · exact ih r htl
          · split
            · next hr hpr hcn hs hle =>
              rw [tradesAgainst_cons, if_pos (by simpa using hmk),
                tradesAgainst_cons, if_neg (by simp)]
              rw [sumQty_cons, ih (r - min r maker.qtyRemaining) htl]
              ring
            · next hr hpr hcn hs hgt =>
              rw [tradesAgainst_cons, if_pos (by simpa using hmk),
                tradesAgainst_cons, if_neg (by simp)]
              simp only [tradesAgainst_nil, sumQty_cons, sumQty_nil]
              rw [min_eq_left (by omega)]
              ring

/-- The concrete state of the C3 witness: a limit buy of 10 at 100,
partially filled by a sell of 5 at 100. -/
def c3book : OrderBook :=
  (mkOrderBook "BTC" "PKR" 0).applyOps
    [.add (newLimitOrder "B1" .buy 10 100 .gtc "u1"),
     .add (newLimitOrder "S1" .sell 5 100 .gtc "u2")]

/-- Witness for C3: cancelling the partially filled `B1` (`Left 5 < 10`)
errors out; its cache entry and the engine book survive. -/
theorem removeOrder_partial_fill_refused_witness :
    cacheLookup c3book.bc "B1" = some c1pos ∧
      c1pos.left < c1pos.order.qtyOriginal ∧
      (c3book.removeOrder "B1").1 = .error () ∧
      (c3book.removeOrder "B1").2.engine = c3book.engine ∧
      cacheLookup (c3book.removeOrder "B1").2.bc "B1" = some c1pos := by
  have h := (removeOrder_partial_fill_refused c3book "B1").1 c1pos
    (by decide) (by decide)
  refine ⟨by decide, by decide, h.1, h.2.1, ?_⟩
  rw [h.2.2 "B1"]
  decide

/-! ## Claim C8: cache membership -/

/-- The book and order of the C8 counterexample: an FOK limit buy into an
empty book. -/
def c8book : OrderBook := mkOrderBook "BTC" "PKR" 0

/-- The FOK limit buy of the C8 counterexample. -/
def c8order : Order := newLimitOrder "F1" .buy 5 100 .fok "u1"

/-- C8 counterexample: an unfilled FOK limit buy never comes to rest
(`stored = false`, no trades), yet `AddOrder` leaves a `BuyerCache` entry
for it — refuting the claim that cache entries exist only for resting
limit buys. -/
theorem cache_membership_counterexample :
    (c8book.addOrder c8order).1 =
      .ok ({ processed := 0, left := 5, stored := false, trades := [] }, []) ∧
    cacheLookup (c8book.addOrder c8order).2.bc "F1" =
      some { order := c8order, trades := [], left := 5 } := by
  constructor <;> decide

/-- C8 (amended) — Cache membership: after an `AddOrder` call, an order id
newly present in the `BuyerCache` can only come from that submission being
a limit buy whose entry-time matching left a positive unfilled remainder —
whether or not the residual came to rest in the book (unfilled FOK buys and
discarded IOC residuals do leave cache entries). -/
theorem cache_membership_amended (ob : OrderBook) (o : Order) (id : String)
    (hcap : 1 ≤ ob.bcCap)
    (hpre : cacheLookup ob.bc id = none)
    (hpost : (cacheLookup (ob.addOrder o).2.bc id).isSome) :
    o.id = id ∧ o.side = .buy ∧ o.kind = .limit ∧
      ∃ pos : BuyerPos, cacheLookup (ob.addOrder o).2.bc id = some pos ∧
        pos.order = o ∧ 0 < pos.left := by
  rcases hE : ob.addOrder o with ⟨res, ob2⟩
  rw [hE] at hpost
  simp only at hpost ⊢
  unfold OrderBook.addOrder at hE
  cases hp : ob.engine.process o with
  | error e =>
    rw [hp] at hE
    simp only at hE
    injection hE with h1 h2
    subst h2
    rw [hpre] at hpost
    simp at hpost
  | ok r =>
    obtain ⟨done, eng'⟩ := r
    rw [hp] at hE
    simp only at hE
    split at hE
    · -- BUY MARKET: cache untouched
      injection hE with h1 h2
      subst h2
      rw [hpre] at hpost
      simp at hpost
    · split at hE
      · -- BUY LIMIT
        next hbl =>
        by_cases hid : o.id = id
        · subst hid
          have hg1 : (cacheGet ob.bc o.id).1 = none := by
            rw [cacheGet_fst, hpre]
          have hg2 : (cacheGet ob.bc o.id).2 = ob.bc := by
            unfold cacheGet
            rw [hpre]
          rw [hg1, hg2] at hE
          simp only [Option.getD_none] at hE
          rw [foldl_buyPosStep_eq] at hE
          simp only [List.nil_append] at hE
          split at hE
          · next hlft =>
            injection hE with h1 h2
            subst h2
            refine ⟨rfl, hbl.1, hbl.2, ?_⟩
            refine ⟨_, cacheLookup_set_self hcap, rfl, hlft⟩
          · next hlft =>
            injection hE with h1 h2
            subst h2
            rw [cacheLookup_removeKey, if_pos rfl] at hpost
            simp at hpost
        · exfalso
          split at hE
          · injection hE with h1 h2
            subst h2
            rw [cacheLookup_set_none (fun hh => hid hh.symm)
              (by rw [cacheLookup_get_snd]; exact hpre)] at hpost
            simp at hpost
          · injection hE with h1 h2
            subst h2
            rw [cacheLookup_removeKey, if_neg (fun hh => hid hh.symm),
              cacheLookup_get_snd, hpre] at hpost
            simp at hpost
      · -- SELL: the fold never introduces new keys
        injection hE with h1 h2
        subst h2
        rw [cacheLookup_none_foldl_sellStep hpre] at hpost
        simp at hpost

/-- Witness for the amended C8 at the counterexample input: the FOK buy is
the only way the entry for "F1" can have appeared. -/
theorem cache_membership_amended_witness :
    c8order.id = "F1" ∧ c8order.side = .buy ∧ c8order.kind = .limit ∧
      ∃ pos : BuyerPos,
        cacheLookup (c8book.addOrder c8order).2.bc "F1" = some pos ∧
          pos.order = c8order ∧ 0 < pos.left :=
  cache_membership_amended c8book c8order "F1" (by decide) (by decide) (by decide)

/-! ## Claim C7: IOC partial fill -/

theorem opposing_ids_ne (b : EngineBook) (o : Order)
    (hdup : ¬ b.allOrders.any (fun r => r.id = o.id) = true) :
    ∀ m ∈ b.opposing o.side, m.id ≠ o.id := by
  intro m hm he
  apply hdup
  rw [List.any_eq_true]
  refine ⟨m, ?_, by simp [he]⟩
  unfold EngineBook.opposing at hm
  unfold EngineBook.allOrders
  rw [List.mem_append]
  cases hs : o.side <;> rw [hs] at hm <;> simp only at hm
  · exact Or.inr hm
  · exact Or.inl hm

/-- What `process` reports for a limit IOC order that passes validation:
the matching-loop results verbatim, `stored = false`, and maker-side
trades summing to the filled quantity. -/
theorem process_limit_ioc (b : EngineBook) (o : Order)
    (hkind : o.kind = .limit) (htif : o.tif = .ioc)
    (done : Done) (b2 : EngineBook)
    (hp : b.process o = .ok (done, b2)) :
    done.left = (matchLoop o o.qtyRemaining (b.opposing o.side)).1 ∧
    done.trades = (matchLoop o o.qtyRemaining (b.opposing o.side)).2.1 ∧
    done.stored = false ∧
    sumQty (tradesAgainst o.id done.trades) = o.qtyRemaining - done.left := by
  unfold EngineBook.process at hp
  split at hp
  · exact Except.noConfusion hp
  · split at hp
    · exact Except.noConfusion hp
    · split at hp
      · exact Except.noConfusion hp
      · next hdup =>
        rw [hkind] at hp
        try simp only at hp
        rw [htif] at hp
        rw [if_neg (by simp)] at hp
        try simp only at hp
        rw [if_neg (by simp)] at hp
        injection hp with h1
        injection h1 with h2 h3
        subst h2
        refine ⟨rfl, rfl, rfl, ?_⟩
        exact matchLoop_maker_sum o o.qtyRemaining (b.opposing o.side)
          (opposing_ids_ne b o hdup)

/-- C7 (amended) — A limit buy with TIF IOC that is partially but not
fully filled on entry produces NO receipt from `AddOrder`; instead the
residual position is seeded in the `BuyerCache` with the maker-side trades
and `Left = done.left`. -/
theorem limitBuy_ioc_partial_no_receipt (ob : OrderBook) (o : Order)
    (done : Done) (receipts : List Receipt) (ob2 : OrderBook)
    (hrun : ob.addOrder o = (.ok (done, receipts), ob2))
    (hside : o.side = .buy) (hkind : o.kind = .limit) (htif : o.tif = .ioc)
    (hfresh : cacheLookup ob.bc o.id = none)
    (hrem : o.qtyRemaining = o.qtyOriginal)
    (hleft : 0 < done.left)
    (hcap : 1 ≤ ob.bcCap) :
    receipts = [] ∧
      cacheLookup ob2.bc o.id =
        some { order := o, trades := tradesAgainst o.id done.trades,
               left := done.left } := by
  unfold OrderBook.addOrder at hrun
  cases hp : ob.engine.process o with
  | error e =>
    rw [hp] at hrun
    simp at hrun
  | ok r =>
    obtain ⟨d, eng'⟩ := r
    rw [hp] at hrun
    simp only at hrun
    rw [if_neg (by simp [hkind])] at hrun
    rw [if_pos ⟨hside, hkind⟩] at hrun
    have hg1 : (cacheGet ob.bc o.id).1 = none := by
      rw [cacheGet_fst, hfresh]
    have hg2 : (cacheGet ob.bc o.id).2 = ob.bc := by
      unfold cacheGet
      rw [hfresh]
    rw [hg1, hg2] at hrun
    simp only [Option.getD_none] at hrun
    rw [foldl_buyPosStep_eq] at hrun
    simp only [List.nil_append] at hrun
    obtain ⟨hL, hT, hS, hsum⟩ := process_limit_ioc ob.engine o hkind htif d eng' hp
    split at hrun
    · next hlft =>
      injection hrun with h1 h2
      injection h1 with h3
      injection h3 with h4 h5
      subst h4
      subst h5
      subst h2
      refine ⟨rfl, ?_⟩
      rw [cacheLookup_set_self hcap]
      simp only [Option.some.injEq, BuyerPos.mk.injEq]
      refine ⟨by trivial, by trivial, by omega⟩
    · next hlft =>
      exfalso
      have hdl : d = done := by
        injection hrun with h1 h2
        injection h1 with h3
        exact congrArg Prod.fst h3
      have h6 : d.left = done.left := by rw [hdl]
      apply hlft
      show 0 < o.qtyOriginal - sumQty (tradesAgainst o.id d.trades)
      omega

/-- The C7 counterexample pre-state: one resting ask of 3 at 100. -/
def c7book : OrderBook :=
  ((mkOrderBook "BTC" "PKR" 0).addOrder (newLimitOrder "A1" .sell 3 100 .gtc "u2")).2

/-- The C7 counterexample taker: an IOC limit buy of 10 at 100 that can
only fill 3. -/
def c7order : Order := newLimitOrder "IOC1" .buy 10 100 .ioc "u1"

/-- C7 counterexample: the partially filled IOC limit buy (processed 3 of
10) yields an empty receipt list, not the single `FilledQty = processed`
receipt the claim requires. -/
theorem limitBuy_ioc_counterexample :
    (c7book.addOrder c7order).1 =
      .ok ({ processed := 3, left := 7, stored := false,
             trades :=
               [{ orderId := "A1", userId := "u2", role := .maker,
                  price := 100, isQuote := false, quantity := 3 },
                { orderId := "IOC1", userId := "u1", role := .taker,
                  price := 100, isQuote := false, quantity := 3 }] }, []) := by
  decide

/-- Witness for the amended C7 at the counterexample input. -/
theorem limitBuy_ioc_partial_no_receipt_witness :
    (c7book.addOrder c7order).2.bc.length = 1 ∧
      cacheLookup (c7book.addOrder c7order).2.bc "IOC1" =
        some { order := c7order,
               trades := [{ orderId := "A1", userId := "u2", role := .maker,
                            price := 100, isQuote := false, quantity := 3 }],
               left := 7 } := by
  refine ⟨by decide, ?_⟩
  have h := limitBuy_ioc_partial_no_receipt c7book c7order
    { processed := 3, left := 7, stored := false,
      trades :=
        [{ orderId := "A1", userId := "u2", role := .maker,
           price := 100, isQuote := false, quantity := 3 },
         { orderId := "IOC1", userId := "u1", role := .taker,
           price := 100, isQuote := false, quantity := 3 }] }
    [] (c7book.addOrder c7order).2
    (by decide) (by decide) (by decide) (by decide) (by decide) (by decide)
    (by decide) (by decide)
  exact h.2

/-! ## Claim C2: coalesced completion receipts -/

/-- The trades of a report that carry a given maker order id: book.go
Case 2 touches the cache entry `trade.OrderID` for each trade. -/
def tradesFor (oid : String) : List TradeOrder → List TradeOrder
  | [] => []
  | t :: ts =>
    if t.orderId = oid then t :: tradesFor oid ts
    else tradesFor oid ts

@[simp]
theorem tradesFor_nil (oid : String) : tradesFor oid [] = [] := rfl

theorem tradesFor_cons (oid : String) (t : TradeOrder) (ts : List TradeOrder) :
    tradesFor oid (t :: ts) =
      if t.orderId = oid then t :: tradesFor oid ts
      else tradesFor oid ts := rfl

/-- The receipts of a batch addressed to a given order id. -/
def receiptsFor (oid : String) : List Receipt → List Receipt
  | [] => []
  | r :: rs =>
    if r.orderID = oid then r :: receiptsFor oid rs
    else receiptsFor oid rs

@[simp]
theorem receiptsFor_nil (oid : String) : receiptsFor oid [] = [] := rfl

theorem receiptsFor_cons (oid : String) (r : Receipt) (rs : List Receipt) :
    receiptsFor oid (r :: rs) =
      if r.orderID = oid then r :: receiptsFor oid rs
      else receiptsFor oid rs := rfl

theorem receiptsFor_append (oid : String) (rs ss : List Receipt) :
    receiptsFor oid (rs ++ ss) = receiptsFor oid rs ++ receiptsFor oid ss := by
  induction rs with
  | nil => simp
  | cons r rs ih =>
    rw [List.cons_append, receiptsFor_cons, receiptsFor_cons, ih]
    split <;> simp

theorem sumQty_tradesFor_nonneg (oid : String) (ts : List TradeOrder)
    (hq : ∀ t ∈ ts, t.orderId = oid → 0 < t.quantity) :
    0 ≤ sumQty (tradesFor oid ts) := by
  induction ts with
  | nil => simp
  | cons t ts ih =>
    rw [tradesFor_cons]
    have ih' := ih (fun u hu => hq u (List.mem_cons_of_mem _ hu))
    split
    · next ht =>
      rw [sumQty_cons]
      have := hq t (List.mem_cons_self _ _) ht
      omega
    · exact ih'

theorem tradesFor_eq_nil_of_sum_nonpos (oid : String) (ts : List TradeOrder)
    (hq : ∀ t ∈ ts, t.orderId = oid → 0 < t.quantity)
    (hs : sumQty (tradesFor oid ts) ≤ 0) : tradesFor oid ts = [] := by
  induction ts with
  | nil => simp
  | cons t ts ih =>
    rw [tradesFor_cons] at hs ⊢
    have hq' : ∀ u ∈ ts, u.orderId = oid → 0 < u.quantity :=
      fun u hu => hq u (List.mem_cons_of_mem _ hu)
    split at hs
    · next ht =>
      exfalso
      rw [sumQty_cons] at hs
      have h1 := hq t (List.mem_cons_self _ _) ht
      have h2 := sumQty_tradesFor_nonneg oid ts hq'
      omega
    · next ht =>
      rw [if_neg ht]
      exact ih hq' hs

theorem cacheRemoveKey_length_le (c : Cache) (id : String) :
    (cacheRemoveKey c id).length ≤ c.length :=
  List.length_filter_le _ c

theorem cacheRemoveKey_length_lt {c : Cache} {id : String} {p : BuyerPos}
    (h : cacheLookup c id = some p) :
    (cacheRemoveKey c id).length < c.length := by
  induction c with
  | nil => simp [cacheLookup] at h
  | cons e c ih =>
    rw [cacheRemoveKey_cons]
    rw [cacheLookup_cons] at h
    by_cases he : e.1 = id
    · rw [if_pos he]
      have := cacheRemoveKey_length_le c id
      simp only [List.length_cons]
      omega
    · rw [if_neg he] at h ⊢
      have := ih h
      simp only [List.length_cons]
      omega

/-- When the cache holds the key and is within capacity, `Add` does not
evict: the update is exactly move-to-front with the new value. -/
theorem cacheSet_no_evict {cap : Nat} {c : Cache} {id : String}
    {mp pos : BuyerPos} (hlen : c.length ≤ cap)
    (hex : cacheLookup c id = some mp) :
    cacheSet cap c id pos = (id, pos) :: cacheRemoveKey c id := by
  unfold cacheSet
  rw [if_neg]
  intro hcontra
  have := cacheRemoveKey_length_lt hex
  simp only [List.length_cons] at hcontra
  omega

/-- The move-to-front form of a cache hit. -/
theorem cacheGet_snd_hit {c : Cache} {id : String} {mp : BuyerPos}
    (h : cacheLookup c id = some mp) :
    (cacheGet c id).2 = (id, mp) :: cacheRemoveKey c id := by
  unfold cacheGet
  rw [h]

theorem cacheGet_snd_length_le (c : Cache) (id : String) :
    (cacheGet c id).2.length ≤ c.length := by
  unfold cacheGet
  cases h : cacheLookup c id with
  | none => simp
  | some mp =>
    simp only [List.length_cons]
    have := cacheRemoveKey_length_lt h
    omega

/-! Step-equation lemmas for the book.go Case 2 fold. -/

theorem sellStep_miss {cap : Nat} {c : Cache} {rs : List Receipt}
    {t : TradeOrder} (h : cacheLookup c t.orderId = none) :
    sellStep cap (c, rs) t = (c, rs) := by
  unfold sellStep cacheGet
  rw [h]

theorem sellStep_hit_stay {cap : Nat} {c : Cache} {rs : List Receipt}
    {t : TradeOrder} {mp : BuyerPos} (h : cacheLookup c t.orderId = some mp)
    (hl : 0 < mp.left - t.quantity) :
    sellStep cap (c, rs) t =
      (cacheSet cap ((t.orderId, mp) :: cacheRemoveKey c t.orderId) t.orderId
        { order := mp.order, trades := mp.trades ++ [t],
          left := mp.left - t.quantity }, rs) := by
  unfold sellStep
  simp only [cacheGet_fst, h]
  rw [if_pos hl, cacheGet_snd_hit h]

theorem sellStep_hit_done {cap : Nat} {c : Cache} {rs : List Receipt}
    {t : TradeOrder} {mp : BuyerPos} (h : cacheLookup c t.orderId = some mp)
    (hl : ¬ 0 < mp.left - t.quantity) :
    sellStep cap (c, rs) t =
      (cacheRemoveKey ((t.orderId, mp) :: cacheRemoveKey c t.orderId) t.orderId,
       rs ++ [{ userID := mp.order.userId, orderID := mp.order.id,
                trades := mp.trades ++ [t],
                filledQty := mp.order.qtyOriginal }]) := by
  unfold sellStep
  simp only [cacheGet_fst, h]
  rw [if_neg hl, cacheGet_snd_hit h]

/-- Every cache entry is keyed by its own order id (book.go keys Case 1
inserts by `order.ID()` and Case 2 inserts by `trade.OrderID`, which names
the same resting order). -/
def Keyed (c : Cache) : Prop := ∀ e ∈ c, e.2.order.id = e.1

theorem keyed_removeKey {c : Cache} {id : String} (h : Keyed c) :
    Keyed (cacheRemoveKey c id) :=
  fun e he => h e (mem_cacheRemoveKey he)

theorem keyed_set {cap : Nat} {c : Cache} {id : String} {pos : BuyerPos}
    (h : Keyed c) (hpos : pos.order.id = id) :
    Keyed (cacheSet cap c id pos) := by
  intro e he
  rcases mem_cacheSet he with rfl | he'
  · exact hpos
  · exact h e he'

theorem keyed_moveFront {c : Cache} {k : String} {mp : BuyerPos}
    (h : Keyed c) (hmp : mp.order.id = k) :
    Keyed ((k, mp) :: cacheRemoveKey c k) := by
  intro e he
  rcases List.mem_cons.mp he with rfl | he'
  · exact hmp
  · exact h e (mem_cacheRemoveKey he')

theorem cacheLookup_moveFront_ne {c : Cache} {k j : String} {mp : BuyerPos}
    (hne : j ≠ k) :
    cacheLookup ((k, mp) :: cacheRemoveKey c k) j = cacheLookup c j := by
  rw [cacheLookup_cons, if_neg (fun h => hne h.symm),
    cacheLookup_removeKey, if_neg hne]

theorem cacheSet_length_le {cap : Nat} {c : Cache} {id : String}
    {pos : BuyerPos} (h : c.length ≤ cap) :
    (cacheSet cap c id pos).length ≤ cap := by
  unfold cacheSet
  have hrk := cacheRemoveKey_length_le c id
  split
  · next hx =>
    rw [List.length_dropLast]
    simp only [List.length_cons] at hx ⊢
    omega
  · next hx =>
    simp only [List.length_cons] at hx ⊢
    omega

/-- The fold of book.go Case 2, entered with a cache that does not hold
`id`: it never creates an entry for `id` and never emits a receipt
addressed to `id`. -/
theorem sellFold_absent (cap : Nat) (ts : List TradeOrder) (c : Cache)
    (rs : List Receipt) (id : String)
    (hnone : cacheLookup c id = none)
    (hkeyed : Keyed c) (hlen : c.length ≤ cap) :
    receiptsFor id (ts.foldl (sellStep cap) (c, rs)).2 = receiptsFor id rs ∧
      cacheLookup (ts.foldl (sellStep cap) (c, rs)).1 id = none := by
  induction ts generalizing c rs with
  | nil => exact ⟨rfl, hnone⟩
  | cons t ts ih =>
    rw [List.foldl_cons]
    cases hl : cacheLookup c t.orderId with
    | none =>
      rw [sellStep_miss hl]
      exact ih c rs hnone hkeyed hlen
    | some mp =>
      have hkey : mp.order.id = t.orderId := hkeyed _ (cacheLookup_mem hl)
      have hne : id ≠ t.orderId := by
        intro he
        rw [← he, hnone] at hl
        cases hl
      have hmf : cacheLookup ((t.orderId, mp) :: cacheRemoveKey c t.orderId) id = none := by
        rw [cacheLookup_moveFront_ne hne]
        exact hnone
      have hmfk : Keyed ((t.orderId, mp) :: cacheRemoveKey c t.orderId) :=
        keyed_moveFront hkeyed hkey
      have hmfl : ((t.orderId, mp) :: cacheRemoveKey c t.orderId).length ≤ cap := by
        have := cacheRemoveKey_length_lt hl
        simp only [List.length_cons]
        omega
      by_cases hstay : 0 < mp.left - t.quantity
      · rw [sellStep_hit_stay hl hstay]
        exact ih _ rs (cacheLookup_set_none hne hmf)
          (keyed_set hmfk (by simpa using hkey)) (cacheSet_length_le hmfl)
      · rw [sellStep_hit_done hl hstay]
        have hrec := ih (cacheRemoveKey ((t.orderId, mp) :: cacheRemoveKey c t.orderId) t.orderId)
          (rs ++ [{ userID := mp.order.userId, orderID := mp.order.id,
                    trades := mp.trades ++ [t],
                    filledQty := mp.order.qtyOriginal }])
          (by rw [cacheLookup_removeKey, if_neg hne]; exact hmf)
          (keyed_removeKey hmfk)
          (le_trans (cacheRemoveKey_length_le _ _) hmfl)
        refine ⟨?_, hrec.2⟩
        rw [hrec.1, receiptsFor_append, receiptsFor_cons]
        rw [if_neg (by simpa [hkey] using fun h => hne h.symm)]
        simp

/-- The fold of book.go Case 2, entered with a cache holding `id` with a
positive remainder: the call whose trades for `id` sum to exactly the
remainder emits exactly one receipt for `id` — carrying the buyer, all
accumulated trades and the original quantity — and removes the entry; a
call whose trades for `id` sum to less leaves the updated entry and emits
no receipt for `id`. -/
theorem sellFold_completes (cap : Nat) (ts : List TradeOrder) (c : Cache)
    (rs : List Receipt) (id : String) (p : BuyerPos)
    (hp : cacheLookup c id = some p)
    (hplft : 0 < p.left)
    (hkeyed : Keyed c) (hlen : c.length ≤ cap)
    (hq : ∀ t ∈ ts, t.orderId = id → 0 < t.quantity) :
    (sumQty (tradesFor id ts) = p.left →
       receiptsFor id (ts.foldl (sellStep cap) (c, rs)).2 =
         receiptsFor id rs ++
           [{ userID := p.order.userId, orderID := p.order.id,
              trades := p.trades ++ tradesFor id ts,
              filledQty := p.order.qtyOriginal }] ∧
       cacheLookup (ts.foldl (sellStep cap) (c, rs)).1 id = none) ∧
    (sumQty (tradesFor id ts) < p.left →
       receiptsFor id (ts.foldl (sellStep cap) (c, rs)).2 = receiptsFor id rs ∧
       cacheLookup (ts.foldl (sellStep cap) (c, rs)).1 id =
         some { order := p.order, trades := p.trades ++ tradesFor id ts,
                left := p.left - sumQty (tradesFor id ts) }) := by
  induction ts generalizing c rs p with
  | nil =>
    constructor
    · intro h
      exfalso
      simp at h
      omega
    · intro h
      refine ⟨rfl, ?_⟩
      simp only [List.foldl_nil]
      rw [hp]
      simp
  | cons t ts ih =>
    have hq' : ∀ u ∈ ts, u.orderId = id → 0 < u.quantity :=
      fun u hu => hq u (List.mem_cons_of_mem _ hu)
    have hpid : p.order.id = id := hkeyed _ (cacheLookup_mem hp)
    rw [List.foldl_cons]
    by_cases hto : t.orderId = id
    · subst hto
      have htq : 0 < t.quantity := hq t (List.mem_cons_self _ _) rfl
      rw [tradesFor_cons, if_pos rfl]
      have hbase : cacheLookup ((t.orderId, p) :: cacheRemoveKey c t.orderId) t.orderId = some p := by
        rw [cacheLookup_cons, if_pos rfl]
      have hbasel : ((t.orderId, p) :: cacheRemoveKey c t.orderId).length ≤ cap := by
        have := cacheRemoveKey_length_lt hp
        simp only [List.length_cons]
        omega
      by_cases hstay : 0 < p.left - t.quantity
      · rw [sellStep_hit_stay hp hstay]
        rw [cacheSet_no_evict hbasel hbase]
        have hlk2 : cacheLookup
            ((t.orderId, { order := p.order, trades := p.trades ++ [t], left := p.left - t.quantity }) ::
              cacheRemoveKey ((t.orderId, p) :: cacheRemoveKey c t.orderId) t.orderId) t.orderId =
            some { order := p.order, trades := p.trades ++ [t], left := p.left - t.quantity } := by
          rw [cacheLookup_cons, if_pos rfl]
        have hk2 : Keyed
            ((t.orderId, { order := p.order, trades := p.trades ++ [t], left := p.left - t.quantity }) ::
              cacheRemoveKey ((t.orderId, p) :: cacheRemoveKey c t.orderId) t.orderId) :=
          keyed_moveFront (keyed_moveFront hkeyed hpid) hpid
        have hl2 : ((t.orderId, { order := p.order, trades := p.trades ++ [t], left := p.left - t.quantity }) ::
              cacheRemoveKey ((t.orderId, p) :: cacheRemoveKey c t.orderId) t.orderId).length ≤ cap := by
          have h1 := cacheRemoveKey_length_lt hbase
          simp only [List.length_cons] at h1 hbasel ⊢
          omega
        have hrec := ih _ rs _ hlk2 hstay hk2 hl2 hq'
        constructor
        · intro hsum
          rw [sumQty_cons] at hsum
          have hsum' : sumQty (tradesFor t.orderId ts) =
              p.left - t.quantity := by omega
          obtain ⟨h1, h2⟩ := hrec.1 hsum'
          refine ⟨?_, h2⟩
          rw [h1]
          simp
        · intro hsum
          rw [sumQty_cons] at hsum
          have hsum' : sumQty (tradesFor t.orderId ts) <
              p.left - t.quantity := by omega
          obtain ⟨h1, h2⟩ := hrec.2 hsum'
          refine ⟨h1, ?_⟩
          rw [h2]
          simp only [Option.some.injEq, BuyerPos.mk.injEq, sumQty_cons]
          refine ⟨by trivial, by simp, by omega⟩
      · rw [sellStep_hit_done hp hstay]
        have hnone2 : cacheLookup
            (cacheRemoveKey ((t.orderId, p) :: cacheRemoveKey c t.orderId) t.orderId) t.orderId = none := by
          rw [cacheLookup_removeKey, if_pos rfl]
        have habs := sellFold_absent cap ts _
          (rs ++ [{ userID := p.order.userId, orderID := p.order.id,
                    trades := p.trades ++ [t],
                    filledQty := p.order.qtyOriginal }]) t.orderId hnone2
          (keyed_removeKey (keyed_moveFront hkeyed hpid))
          (le_trans (cacheRemoveKey_length_le _ _) hbasel)
        have hrsplit : receiptsFor t.orderId
            (rs ++ [{ userID := p.order.userId, orderID := p.order.id,
                      trades := p.trades ++ [t],
                      filledQty := p.order.qtyOriginal }]) =
            receiptsFor t.orderId rs ++
              [{ userID := p.order.userId, orderID := p.order.id,
                 trades := p.trades ++ [t],
                 filledQty := p.order.qtyOriginal }] := by
          rw [receiptsFor_append, receiptsFor_cons]
          rw [if_pos (by simpa using hpid)]
          rfl
        constructor
        · intro hsum
          rw [sumQty_cons] at hsum
          have hnn := sumQty_tradesFor_nonneg t.orderId ts hq'
          have hzero : sumQty (tradesFor t.orderId ts) ≤ 0 := by omega
          have hnil := tradesFor_eq_nil_of_sum_nonpos t.orderId ts hq' hzero
          refine ⟨?_, habs.2⟩
          rw [habs.1, hrsplit, hnil]
        · intro hsum
          exfalso
          rw [sumQty_cons] at hsum
          have hnn := sumQty_tradesFor_nonneg t.orderId ts hq'
          omega
    · rw [tradesFor_cons, if_neg hto]
      have hne : id ≠ t.orderId := fun h => hto h.symm
      cases hl : cacheLookup c t.orderId with
      | none =>
        rw [sellStep_miss hl]
        exact ih c rs p hp hplft hkeyed hlen hq'
      | some mp =>
        have hkey : mp.order.id = t.orderId := hkeyed _ (cacheLookup_mem hl)
        have hbase : cacheLookup ((t.orderId, mp) :: cacheRemoveKey c t.orderId) t.orderId = some mp := by
          rw [cacheLookup_cons, if_pos rfl]
        have hbasep : cacheLookup ((t.orderId, mp) :: cacheRemoveKey c t.orderId) id = some p := by
          rw [cacheLookup_moveFront_ne hne]
          exact hp
        have hbasek : Keyed ((t.orderId, mp) :: cacheRemoveKey c t.orderId) :=
          keyed_moveFront hkeyed hkey
        have hbasel : ((t.orderId, mp) :: cacheRemoveKey c t.orderId).length ≤ cap := by
          have := cacheRemoveKey_length_lt hl
          simp only [List.length_cons]
          omega
        by_cases hstay : 0 < mp.left - t.quantity
        · rw [sellStep_hit_stay hl hstay]
          rw [cacheSet_no_evict hbasel hbase]
          have hp2 : cacheLookup
              ((t.orderId, { order := mp.order, trades := mp.trades ++ [t], left := mp.left - t.quantity }) ::
                cacheRemoveKey ((t.orderId, mp) :: cacheRemoveKey c t.orderId) t.orderId) id = some p := by
            rw [cacheLookup_moveFront_ne hne]
            exact hbasep
          have hk2 : Keyed
              ((t.orderId, { order := mp.order, trades := mp.trades ++ [t], left := mp.left - t.quantity }) ::
                cacheRemoveKey ((t.orderId, mp) :: cacheRemoveKey c t.orderId) t.orderId) :=
            keyed_moveFront hbasek hkey
          have hl2 : ((t.orderId, { order := mp.order, trades := mp.trades ++ [t], left := mp.left - t.quantity }) ::
                cacheRemoveKey ((t.orderId, mp) :: cacheRemoveKey c t.orderId) t.orderId).length ≤ cap := by
            have h1 := cacheRemoveKey_length_lt hbase
            simp only [List.length_cons] at h1 hbasel ⊢
            omega
          exact ih _ rs p hp2 hplft hk2 hl2 hq'
        · rw [sellStep_hit_done hl hstay]
          have hp2 : cacheLookup
              (cacheRemoveKey ((t.orderId, mp) :: cacheRemoveKey c t.orderId) t.orderId) id = some p := by
            rw [cacheLookup_removeKey, if_neg hne]
            exact hbasep
          have hrec := ih _
            (rs ++ [{ userID := mp.order.userId, orderID := mp.order.id,
                      trades := mp.trades ++ [t],
                      filledQty := mp.order.qtyOriginal }]) p hp2 hplft
            (keyed_removeKey hbasek)
            (le_trans (cacheRemoveKey_length_le _ _) hbasel) hq'
          have hrsame : receiptsFor id
              (rs ++ [{ userID := mp.order.userId, orderID := mp.order.id,
                        trades := mp.trades ++ [t],
                        filledQty := mp.order.qtyOriginal }]) =
              receiptsFor id rs := by
            rw [receiptsFor_append, receiptsFor_cons]
            rw [if_neg (by simpa [hkey] using hne.symm)]
            simp
          constructor
          · intro hsum
            obtain ⟨h1, h2⟩ := hrec.1 hsum
            rw [hrsame] at h1
            exact ⟨h1, h2⟩
          · intro hsum
            obtain ⟨h1, h2⟩ := hrec.2 hsum
            rw [hrsame] at h1
            exact ⟨h1, h2⟩

/-- C2 — Coalesced completion receipt: for a sell submission processed by
`AddOrder` against a book whose `BuyerCache` holds buyer `id` with a
positive remainder, (a) when the trades touching `id` sum to exactly the
cached `Left`, the call emits exactly one receipt for that buyer — with
`FilledQty` the buy order's original quantity and `Trades` all accumulated
trades — and removes the entry; (b) when they sum to less, the call emits
no receipt for that buyer and leaves the updated entry. -/
theorem coalesced_completion_receipt (ob : OrderBook) (s : Order)
    (done : Done) (receipts : List Receipt) (ob2 : OrderBook)
    (hrun : ob.addOrder s = (.ok (done, receipts), ob2))
    (hside : s.side = .sell)
    (id : String) (p : BuyerPos)
    (hp : cacheLookup ob.bc id = some p)
    (hplft : 0 < p.left)
    (hlen : ob.bc.length ≤ ob.bcCap)
    (hkeyed : ∀ e ∈ ob.bc, e.2.order.id = e.1)
    (hq : ∀ t ∈ done.trades, t.orderId = id → 0 < t.quantity) :
    (sumQty (tradesFor id done.trades) = p.left →
       receiptsFor id receipts =
         [{ userID := p.order.userId, orderID := p.order.id,
            trades := p.trades ++ tradesFor id done.trades,
            filledQty := p.order.qtyOriginal }] ∧
       cacheLookup ob2.bc id = none) ∧
    (sumQty (tradesFor id done.trades) < p.left →
       receiptsFor id receipts = [] ∧
       cacheLookup ob2.bc id =
         some { order := p.order, trades := p.trades ++ tradesFor id done.trades,
                left := p.left - sumQty (tradesFor id done.trades) }) := by
  unfold OrderBook.addOrder at hrun
  cases hpr : ob.engine.process s with
  | error e =>
    rw [hpr] at hrun
    simp at hrun
  | ok r =>
    obtain ⟨d, eng'⟩ := r
    rw [hpr] at hrun
    simp only at hrun
    rw [if_neg (by simp [hside])] at hrun
    rw [if_neg (by simp [hside])] at hrun
    have hd : d = done := by
      injection hrun with h1 h2
      injection h1 with h3
      exact congrArg Prod.fst h3
    have hrcpts : (d.trades.foldl (sellStep ob.bcCap) (ob.bc, [])).2 = receipts := by
      injection hrun with h1 h2
      injection h1 with h3
      exact congrArg Prod.snd h3
    have hbc : (d.trades.foldl (sellStep ob.bcCap) (ob.bc, [])).1 = ob2.bc := by
      injection hrun with h1 h2
      exact congrArg OrderBook.bc h2
    subst hd
    have hmain := sellFold_completes ob.bcCap d.trades ob.bc [] id p
      hp hplft hkeyed hlen hq
    rw [hrcpts, hbc] at hmain
    simpa using hmain

/-- The C2 witness pre-state: limit buy BID2 of 10 at 100 rests, then a
sell of 3 at 100 partially fills it (cache `Left = 7`). -/
def c2book : OrderBook :=
  ((mkOrderBook "BTC" "PKR" 0).applyOps
    [.add (newLimitOrder "BID2" .buy 10 100 .gtc "u1"),
     .add (newLimitOrder "ASKA" .sell 3 100 .gtc "u2")])

/-- The completing sell of the C2 witness. -/
def c2sell : Order := newLimitOrder "ASKB" .sell 7 100 .gtc "u3"

/-- The cached buyer position before the completing sell. -/
def c2pos : BuyerPos :=
  { order := newLimitOrder "BID2" .buy 10 100 .gtc "u1",
    trades := [{ orderId := "BID2", userId := "u1", role := .maker,
                 price := 100, isQuote := false, quantity := 3 }],
    left := 7 }

/-- The engine report of the completing sell. -/
def c2done : Done :=
  { processed := 7, left := 0, stored := false,
    trades := [{ orderId := "BID2", userId := "u1", role := .maker,
                 price := 100, isQuote := false, quantity := 7 },
               { orderId := "ASKB", userId := "u3", role := .taker,
                 price := 100, isQuote := false, quantity := 7 }] }

/-- The receipts of the completing sell. -/
def c2receipts : List Receipt :=
  [{ userID := "u1", orderID := "BID2",
     trades := [{ orderId := "BID2", userId := "u1", role := .maker,
                  price := 100, isQuote := false, quantity := 3 },
                { orderId := "BID2", userId := "u1", role := .maker,
                  price := 100, isQuote := false, quantity := 7 }],
     filledQty := 10 }]

/-- The book after the completing sell. -/
def c2after : OrderBook :=
  { engine := { bids := [], asks := [] }, bc := [], bcCap := 50000,
    base := "BTC", quote := "PKR" }

/-- Witness for C2 at the spec's own scenario 3: the sell of 7 completes
the cached buyer, emitting exactly one receipt with all accumulated trades
and `FilledQty = 10`, and empties the cache entry. -/
theorem coalesced_completion_receipt_witness :
    c2book.addOrder c2sell = (.ok (c2done, c2receipts), c2after) ∧
      receiptsFor "BID2" c2receipts =
        [{ userID := "u1", orderID := "BID2",
           trades := c2pos.trades ++ tradesFor "BID2" c2done.trades,
           filledQty := 10 }] ∧
      cacheLookup c2after.bc "BID2" = none := by
  have h := (coalesced_completion_receipt c2book c2sell c2done c2receipts
    c2after (by decide) (by decide) "BID2" c2pos (by decide) (by decide)
    (by decide) (by decide) (by decide)).1 (by decide)
  exact ⟨by decide, h.1, h.2⟩

/-! ## Claim C4: reconciliation idempotence (pgsql_handler.go, models.go)

The analytical store is modelled as in-memory tables keyed by the same
primary keys the SQL tables use.  Timestamps (`CreatedAt`/`UpdatedAt`,
set to `time.Now()`) are outside the model; they are not read back.
`uuid.NewString()` is nondeterministic, so each delivery's freshly
generated ids are passed as explicit arguments. -/

/-- Translated from models.go `Trade`: the analytical trade row, whose
primary key is a uuid generated at conversion time by
`NewTradeFromEngine`, not the trade content. -/
structure TradeRow where
  id : String
  orderId : String
  userId : String
  role : Role
  price : Int
  isQuote : Bool
  quantity : Int
  deriving DecidableEq, Repr

/-- Translated from models.go `Receipt`: one analytical receipt row per
trade, with freshly generated `id` and `trade_id`. -/
structure ReceiptRow where
  id : String
  userID : String
  orderID : String
  tradeID : String
  filledQty : Int
  deriving DecidableEq, Repr

/-- The analytical store: orders keyed by `order.id`, trades and receipts
keyed by their generated uuids. -/
structure PgStore where
  orders : List Order
  trades : List TradeRow
  receipts : List ReceiptRow
  deriving DecidableEq, Repr

/-- Translated from pgsql_handler.go `validateOrder`. -/
def pgValidOrder (o : Order) : Bool :=
  ¬ o.id = "" ∧ ¬ o.userId = "" ∧ ¬ o.qtyRemaining = 0

/-- Translated from pgsql_handler.go `validateTrade`. -/
def pgValidTrade (t : TradeOrder) : Bool :=
  ¬ t.orderId = "" ∧ ¬ t.userId = "" ∧ ¬ t.quantity = 0

/-- Translated from pgsql_handler.go `validateReceipt`. -/
def pgValidReceipt (r : Receipt) : Bool :=
  ¬ r.userID = "" ∧ ¬ r.orderID = "" ∧ ¬ r.trades = []

/-- Translated from pgsql_handler.go `handleOrderPut`: validate, check
existence by the order's own id, insert if absent. -/
def handleOrderPut (st : PgStore) (o : Order) : PgStore :=
  if ¬ pgValidOrder o then st
  else if st.orders.any (fun r => r.id = o.id) then st
  else { st with orders := st.orders ++ [o] }

/-- Translated from models.go `NewTradeFromEngine`: the row's primary key
is the freshly generated uuid. -/
def newTradeFromEngine (uuid : String) (t : TradeOrder) : TradeRow :=
  { id := uuid, orderId := t.orderId, userId := t.userId, role := t.role,
    price := t.price, isQuote := t.isQuote, quantity := t.quantity }

/-- Translated from pgsql_handler.go `handleTradePut`: validate, convert
with a fresh uuid, check existence by that uuid, insert if absent. -/
def handleTradePut (uuid : String) (st : PgStore) (t : TradeOrder) : PgStore :=
  if ¬ pgValidTrade t then st
  else if st.trades.any (fun r => r.id = (newTradeFromEngine uuid t).id) then st
  else { st with trades := st.trades ++ [newTradeFromEngine uuid t] }

/-- Translated from models.go `CreateReceiptsFromEngine`: one row per
trade, each with freshly generated receipt and trade uuids, `FilledQty`
taken from the trade quantity. -/
def createReceiptsFromEngine (uuids : List (String × String)) (r : Receipt) :
    List ReceiptRow :=
  (r.trades.zip uuids).map (fun e =>
    { id := e.2.1, userID := r.userID, orderID := r.orderID,
      tradeID := e.2.2, filledQty := e.1.quantity })

/-- Translated from pgsql_handler.go `handleReceiptPut`: validate, then
insert every converted row whose (freshly generated) id is absent. -/
def handleReceiptPut (uuids : List (String × String)) (st : PgStore)
    (r : Receipt) : PgStore :=
  if ¬ pgValidReceipt r then st
  else (createReceiptsFromEngine uuids r).foldl
    (fun acc row =>
      if acc.receipts.any (fun x => x.id = row.id) then acc
      else { acc with receipts := acc.receipts ++ [row] }) st

/-- C4 counterexample — the same TRADE_PUT message delivered twice: each
delivery generates a fresh uuid primary key, so the duplicate check never
fires and a second row is inserted; the store after two applications
differs from the store after one. -/
theorem reconciliation_idempotence_counterexample :
    handleTradePut "uuid-2"
        (handleTradePut "uuid-1" { orders := [], trades := [], receipts := [] }
          { orderId := "B1", userId := "u1", role := .maker, price := 100,
            isQuote := false, quantity := 5 })
        { orderId := "B1", userId := "u1", role := .maker, price := 100,
          isQuote := false, quantity := 5 } ≠
      handleTradePut "uuid-1" { orders := [], trades := [], receipts := [] }
        { orderId := "B1", userId := "u1", role := .maker, price := 100,
          isQuote := false, quantity := 5 } := by
  decide

/-- C4 (amended) — Reconciliation idempotence holds for ORDER_PUT, whose
existence check uses the order's own id; it fails for TRADE_PUT and
RECEIPT_PUT, whose rows are keyed by uuids freshly generated at each
delivery, so every redelivery inserts additional rows. -/
theorem reconciliation_idempotence_amended :
    (∀ (st : PgStore) (o : Order),
       handleOrderPut (handleOrderPut st o) o = handleOrderPut st o) ∧
    (∀ (st : PgStore) (t : TradeOrder) (u1 u2 : String),
       pgValidTrade t = true →
       st.trades.all (fun r => ¬ r.id = u1) = true →
       st.trades.all (fun r => ¬ r.id = u2) = true →
       u1 ≠ u2 →
       (handleTradePut u2 (handleTradePut u1 st t) t).trades.length =
         st.trades.length + 2 ∧
       (handleTradePut u1 st t).trades.length = st.trades.length + 1) ∧
    (∀ (st : PgStore) (r : Receipt) (t : TradeOrder) (ua ub uc ud : String),
       pgValidReceipt r = true →
       r.trades = [t] →
       st.receipts.all (fun x => ¬ x.id = ua) = true →
       st.receipts.all (fun x => ¬ x.id = uc) = true →
       ua ≠ uc →
       (handleReceiptPut [(uc, ud)] (handleReceiptPut [(ua, ub)] st r) r).receipts.length =
         st.receipts.length + 2 ∧
       (handleReceiptPut [(ua, ub)] st r).receipts.length =
         st.receipts.length + 1) := by
  refine ⟨?_, ?_, ?_⟩
  · intro st o
    unfold handleOrderPut
    by_cases hv : pgValidOrder o
    · by_cases hex : (st.orders.any fun r => r.id = o.id) = true
      · simp [hv, hex]
      · have hex2 : ((st.orders ++ [o]).any fun r => r.id = o.id) = true := by
          simp
        simp [hv, hex, hex2]
    · simp [hv]
  · intro st t u1 u2 hv h1 h2 hne
    have h1' : ∀ x ∈ st.trades, ¬ x.id = u1 := by
      simpa using h1
    have h2' : ∀ x ∈ st.trades, ¬ x.id = u2 := by
      simpa using h2
    have e1 : handleTradePut u1 st t =
        { st with trades := st.trades ++ [newTradeFromEngine u1 t] } := by
      unfold handleTradePut
      rw [if_neg (by simp [hv])]
      rw [if_neg (by
        simp only [newTradeFromEngine, List.any_eq_true, decide_eq_true_eq]
        rintro ⟨x, hx, hxe⟩
        exact h1' x hx hxe)]
    have e2 : handleTradePut u2
        { st with trades := st.trades ++ [newTradeFromEngine u1 t] } t =
        { st with trades := st.trades ++ [newTradeFromEngine u1 t] ++
            [newTradeFromEngine u2 t] } := by
      unfold handleTradePut
      rw [if_neg (by simp [hv])]
      rw [if_neg (by
        simp only [newTradeFromEngine, List.any_eq_true, List.mem_append,
          List.mem_singleton, decide_eq_true_eq]
        rintro ⟨x, hx | hx, hxe⟩
        · exact h2' x hx hxe
        · rw [hx] at hxe
          simp only [newTradeFromEngine] at hxe
          exact hne hxe)]
    rw [e1, e2]
    constructor
    · simp
    · simp
  · intro st r t ua ub uc ud hv htr h1 h2 hne
    have h1' : ∀ x ∈ st.receipts, ¬ x.id = ua := by
      simpa using h1
    have h2' : ∀ x ∈ st.receipts, ¬ x.id = uc := by
      simpa using h2
    have hcre1 : createReceiptsFromEngine [(ua, ub)] r =
        [{ id := ua, userID := r.userID, orderID := r.orderID,
           tradeID := ub, filledQty := t.quantity }] := by
      unfold createReceiptsFromEngine
      rw [htr]
      rfl
    have hcre2 : createReceiptsFromEngine [(uc, ud)] r =
        [{ id := uc, userID := r.userID, orderID := r.orderID,
           tradeID := ud, filledQty := t.quantity }] := by
      unfold createReceiptsFromEngine
      rw [htr]
      rfl
    have e1 : handleReceiptPut [(ua, ub)] st r =
        { st with receipts := st.receipts ++
            [{ id := ua, userID := r.userID, orderID := r.orderID,
               tradeID := ub, filledQty := t.quantity }] } := by
      unfold handleReceiptPut
      rw [if_neg (by simp [hv]), hcre1]
      simp only [List.foldl_cons, List.foldl_nil]
      rw [if_neg (by
        simp only [List.any_eq_true, decide_eq_true_eq]
        rintro ⟨x, hx, hxe⟩
        exact h1' x hx hxe)]
    have e2 : handleReceiptPut [(uc, ud)]
        { st with receipts := st.receipts ++
            [{ id := ua, userID := r.userID, orderID := r.orderID,
               tradeID := ub, filledQty := t.quantity }] } r =
        { st with receipts := st.receipts ++
            [{ id := ua, userID := r.userID, orderID := r.orderID,
               tradeID := ub, filledQty := t.quantity }] ++
            [{ id := uc, userID := r.userID, orderID := r.orderID,
               tradeID := ud, filledQty := t.quantity }] } := by
      unfold handleReceiptPut
      rw [if_neg (by simp [hv]), hcre2]
      simp only [List.foldl_cons, List.foldl_nil]
      rw [if_neg (by
        simp only [List.any_eq_true, List.mem_append, List.mem_singleton,
          decide_eq_true_eq]
        rintro ⟨x, hx | hx, hxe⟩
        · exact h2' x hx hxe
        · rw [hx] at hxe
          simp only at hxe
          exact hne hxe)]
    rw [e1, e2]
    constructor
    · simp
    · simp

/-- The trade message of the C4 witness. -/
def c4trade : TradeOrder :=
  { orderId := "B1", userId := "u1", role := .maker, price := 100,
    isQuote := false, quantity := 5 }

/-- The receipt message of the C4 witness. -/
def c4receipt : Receipt :=
  { userID := "u1", orderID := "B1", trades := [c4trade], filledQty := 5 }

/-- Witness for the amended C4: ORDER_PUT applied twice equals once, while
two deliveries of the same TRADE_PUT message, and of the same RECEIPT_PUT
message, each leave two rows where one delivery leaves one. -/
theorem reconciliation_idempotence_amended_witness :
    pgValidTrade c4trade = true ∧
    (handleTradePut "uuid-b"
        (handleTradePut "uuid-a" { orders := [], trades := [], receipts := [] }
          c4trade) c4trade).trades.length = 0 + 2 ∧
    (handleTradePut "uuid-a" { orders := [], trades := [], receipts := [] }
        c4trade).trades.length = 0 + 1 ∧
    pgValidReceipt c4receipt = true ∧
    (handleReceiptPut [("uuid-rc", "uuid-rd")]
        (handleReceiptPut [("uuid-ra", "uuid-rb")]
          { orders := [], trades := [], receipts := [] } c4receipt)
        c4receipt).receipts.length = 0 + 2 ∧
    (handleReceiptPut [("uuid-ra", "uuid-rb")]
        { orders := [], trades := [], receipts := [] }
        c4receipt).receipts.length = 0 + 1 := by
  have h := reconciliation_idempotence_amended.2.1
    { orders := [], trades := [], receipts := [] } c4trade "uuid-a" "uuid-b"
    (by decide) (by decide) (by decide) (by decide)
  have hr := reconciliation_idempotence_amended.2.2
    { orders := [], trades := [], receipts := [] } c4receipt c4trade
    "uuid-ra" "uuid-rb" "uuid-rc" "uuid-rd"
    (by decide) (by decide) (by decide) (by decide) (by decide)
  exact ⟨by decide, h.1, h.2, by decide, hr.1, hr.2⟩

/-! ## Claim C5: DELETE endpoint contract (server.go, order_handler.go) -/

/-- HTTP statuses returned by the cancel route. -/
inductive HStatus where
  | ok200
  | bad400
  | internal500
  deriving DecidableEq, Repr

/-- Results of `OrderHandler.CancelOrder` (order_handler.go). -/
inductive CancelResult where
  | errNoBook
  | errNotFound
  | errCancelFailed
  | success (o : Order)
  deriving DecidableEq, Repr

/-- Translated from order_handler.go `getBook`: empty symbol or unknown
symbol is an error. -/
def getBook (bs : List (String × OrderBook)) (symbol : String) :
    Option OrderBook :=
  if symbol = "" then none
  else ((bs.find? (fun e => e.1 = symbol)).map (·.2))

/-- Replace the book stored under a symbol. -/
def setBook (bs : List (String × OrderBook)) (symbol : String)
    (ob : OrderBook) : List (String × OrderBook) :=
  bs.map (fun e => if e.1 = symbol then (symbol, ob) else e)

/-- Translated from order_handler.go `CancelOrder`: look the order up via
the promoted engine `GetOrder`, call the promoted engine `CancelOrder`
(NOT the book-level `RemoveOrder`, so the partial-fill refusal never
runs), and — the slip — treat a non-nil result (the successfully canceled
order) as a failure.  The KV update and message publication of the
success path are modelled as succeeding. -/
def handlerCancelOrder (bs : List (String × OrderBook))
    (symbol orderID : String) : CancelResult × List (String × OrderBook) :=
  match getBook bs symbol with
  | none => (.errNoBook, bs)
  | some ob =>
    match ob.engine.getOrder orderID with
    | none => (.errNotFound, bs)
    | some o =>
      let r := ob.engine.cancelOrder orderID
      let bs2 := setBook bs symbol { ob with engine := r.2 }
      match r.1 with
      | some _ => (.errCancelFailed, bs2)
      | none => (.success o, bs2)

/-- Translated from server.go `handleOrderCancel`: 400 for a missing id or
symbol, 500 for ANY handler error, 200 otherwise. -/
def handleOrderCancel (bs : List (String × OrderBook))
    (orderID symbol : String) : HStatus × List (String × OrderBook) :=
  if orderID = "" then (.bad400, bs)
  else if symbol = "" then (.bad400, bs)
  else
    match handlerCancelOrder bs symbol orderID with
    | (.success _, bs2) => (.ok200, bs2)
    | (_, bs2) => (.internal500, bs2)

/-- The C5 state: one symbol with a resting, unfilled limit buy `B1`. -/
def c5books : List (String × OrderBook) :=
  [("BTC/PKR",
    ((mkOrderBook "BTC" "PKR" 0).addOrder
      (newLimitOrder "B1" .buy 10 100 .gtc "u1")).2)]

/-- C5 — the DELETE handler never returns the documented statuses: for the
resting, cancellable order `B1` it returns 500 (the claim requires 200)
even though the cancellation already happened in the engine, and for an
absent order it also returns 500 (the claim requires 404).  The handler
calls the promoted engine `CancelOrder`, so the partial-fill 400 path is
unreachable, and it treats the non-nil canceled order as failure. -/
theorem deleteEndpoint_contract_bug :
    (handleOrderCancel c5books "B1" "BTC/PKR").1 = .internal500 ∧
    ((getBook (handleOrderCancel c5books "B1" "BTC/PKR").2 "BTC/PKR").map
        (fun ob => ob.engine.getOrder "B1")) = some none ∧
    (handleOrderCancel c5books "ABSENT" "BTC/PKR").1 = .internal500 := by
  refine ⟨by decide, by decide, by decide⟩

/-! ## Claim C6: submission validation and non-positive quantities -/

/-- Validation error kinds of order_handler.go `validateOrder`. -/
inductive ValErr where
  | emptyId
  | emptyUser
  | zeroQty
  deriving DecidableEq, Repr

/-- Translated from order_handler.go `validateOrder`: rejects an empty id,
an empty user id, and a quantity COMPARING EQUAL TO ZERO — strictly
negative quantities pass this validation. -/
def validateOrder (o : Order) : Option ValErr :=
  if o.id = "" then some .emptyId
  else if o.userId = "" then some .emptyUser
  else if o.qtyRemaining = 0 then some .zeroQty
  else none

/-- Translated from order_handler.go `CreateOrder` (state-relevant core):
validation failure returns an error without touching the book; otherwise
the order is handed to the engine `Process`, whose failure also leaves
the book unchanged. -/
def createOrder (eng : EngineBook) (o : Order) : Bool × EngineBook :=
  match validateOrder o with
  | some _ => (false, eng)
  | none =>
    match eng.process o with
    | .error _ => (false, eng)
    | .ok r => (true, r.2)

/-- C6 — Submission of an order with non-positive quantity is rejected
and the order never reaches the book: a zero quantity is caught by the
handler validation, and any other non-positive original quantity that
passes the handler validation is rejected by the engine with the
InvalidQuantity error. -/
theorem submission_rejects_nonpositive_qty (eng : EngineBook) (o : Order)
    (h : o.qtyOriginal ≤ 0) :
    (createOrder eng o).1 = false ∧ (createOrder eng o).2 = eng ∧
      (validateOrder o = none → o.canceled = false →
        eng.process o = .error .invalidQuantity) := by
  have hproc : validateOrder o = none → o.canceled = false →
      eng.process o = .error .invalidQuantity := by
    intro hv hc
    unfold EngineBook.process
    rw [if_neg (by simp [hc]), if_pos h]
  refine ⟨?_, ?_, hproc⟩ <;>
  · unfold createOrder
    cases hv : validateOrder o with
    | some e => simp
    | none =>
      have herr : ∃ err, eng.process o = .error err := by
        by_cases hc : o.canceled = true
        · refine ⟨.orderCanceled, ?_⟩
          unfold EngineBook.process
          rw [if_pos hc]
        · exact ⟨.invalidQuantity, hproc hv (by simpa using hc)⟩
      obtain ⟨err, he⟩ := herr
      rw [he]

/-- Witness for C6: a strictly negative market buy (quantity −5) passes
the handler validation — exposing that the handler alone checks only
equality with zero — and is then rejected by the engine, never reaching
the book. -/
theorem submission_rejects_nonpositive_qty_witness :
    validateOrder (newMarketOrder "N1" .buy (-5) "u1") = none ∧
    (createOrder { bids := [], asks := [] }
        (newMarketOrder "N1" .buy (-5) "u1")).1 = false ∧
    (createOrder { bids := [], asks := [] }
        (newMarketOrder "N1" .buy (-5) "u1")).2 = { bids := [], asks := [] } ∧
    ({ bids := [], asks := [] } : EngineBook).process
        (newMarketOrder "N1" .buy (-5) "u1") = .error .invalidQuantity := by
  have h := submission_rejects_nonpositive_qty { bids := [], asks := [] }
    (newMarketOrder "N1" .buy (-5) "u1") (by decide)
  exact ⟨by decide, h.1, h.2.1, h.2.2 (by decide) (by decide)⟩

/-! ## Claim C9: event wire format (rpc/types.go `InternalMessage`) -/

/-- A JSON value, the codomain of `encoding/json` marshalling. -/
inductive Json where
  | str (s : String)
  | num (n : Int)
  | boolean (b : Bool)
  | null
  | arr (xs : List Json)
  | obj (fields : List (String × Json))

/-- Field lookup on a JSON object. -/
def jsonLookup (j : Json) (k : String) : Option Json :=
  match j with
  | .obj fields => (fields.find? (fun e => e.1 = k)).map (·.2)
  | _ => none

/-- Whether a JSON value is a string. -/
def Json.isStr : Json → Bool
  | .str _ => true
  | _ => false

/-- Translated from rpc/types.go: `InternalMessageType` is a `byte` with
iota values ORDER_PUT = 0, ORDER_DELETE = 1, ORDER_UPDATE = 2,
TRADE_PUT = 3, RECEIPT_PUT = 4. -/
inductive InternalMessageType where
  | orderPut
  | orderDelete
  | orderUpdate
  | tradePut
  | receiptPut
  deriving DecidableEq, Repr

/-- The iota value of each message type. -/
def typeCode : InternalMessageType → Int
  | .orderPut => 0
  | .orderDelete => 1
  | .orderUpdate => 2
  | .tradePut => 3
  | .receiptPut => 4

/-- Translated from rpc/types.go `InternalMessage`; the RFC3339 timestamp
is kept as its string form. -/
structure InternalMessage where
  id : String
  type : InternalMessageType
  timestamp : String
  data : Json

/-- Translated from rpc/types.go `InternalMessage.ToBytes`
(`json.Marshal` of the struct): the `type` field is the byte value, which
`encoding/json` serializes as a NUMBER, not a string tag. -/
def InternalMessage.toBytes (m : InternalMessage) : Json :=
  .obj [("id", .str m.id), ("type", .num (typeCode m.type)),
        ("timestamp", .str m.timestamp), ("data", m.data)]

/-- A concrete ORDER_PUT message. -/
def c9msg : InternalMessage :=
  { id := "9f1a", type := .orderPut,
    timestamp := "2026-01-01T00:00:00Z", data := .obj [] }

/-- C9 counterexample: the serialized "type" field of an ORDER_PUT message
is the JSON number 0, not one of the five string tags the claim names. -/
theorem event_wire_format_counterexample :
    jsonLookup c9msg.toBytes "type" = some (.num 0) ∧
      (jsonLookup c9msg.toBytes "type").map Json.isStr = some false := by
  exact ⟨rfl, rfl⟩

/-- C9 (amended) — Event wire format: every serialized event message is a
JSON object with an "id" string, a "timestamp" string, a "data" payload
and a "type" field holding the NUMERIC tag of one of the five message
types: 0 = ORDER_PUT, 1 = ORDER_DELETE, 2 = ORDER_UPDATE, 3 = TRADE_PUT,
4 = RECEIPT_PUT. -/
theorem event_wire_format_amended (m : InternalMessage) :
    jsonLookup m.toBytes "id" = some (.str m.id) ∧
    jsonLookup m.toBytes "timestamp" = some (.str m.timestamp) ∧
    jsonLookup m.toBytes "data" = some m.data ∧
    jsonLookup m.toBytes "type" = some (.num (typeCode m.type)) ∧
    0 ≤ typeCode m.type ∧ typeCode m.type ≤ 4 := by
  refine ⟨rfl, rfl, rfl, rfl, ?_, ?_⟩ <;> cases m.type <;> simp [typeCode]

/-! ## Claim C10: Receipt JSON round trip (receipt.go)

`Receipt.MarshalJSON` copies the ids, serializes the trades via the
engine trade payload (spec §6: price and quantity as fixed-point strings)
and writes `FilledQty` with `fpdecimal.Decimal.String`;
`Receipt.UnmarshalJSON` parses it back with `fpdecimal.FromString`.
The fpdecimal string form (external library, `FractionDigits = 8` set in
types.go) is modelled at character-content level: sign, integer digits
and fraction digits (little-endian), printed trailing fraction zeros
trimmed. -/

/-- Modelled from the spec (§4.1): the content of a fixed-point decimal
string — sign, integer-part digits and fractional digits after the point
(stored least-significant first), with no trailing printed zeros. -/
structure DecStr where
  neg : Bool
  intDigits : List Nat
  fracDigits : List Nat
  deriving DecidableEq, Repr

/-- The 8-digit little-endian fraction block of `fp < 10^8`. -/
def natFrac8 (fp : Nat) : List Nat :=
  Nat.digits 10 fp ++ List.replicate (8 - (Nat.digits 10 fp).length) 0

/-- Modelled from the spec (§4.1, §6): `fpdecimal.Decimal.String` —
sign, integer part, fraction with trailing zeros trimmed. -/
def decToStr (v : Int) : DecStr :=
  { neg := decide (v < 0),
    intDigits := Nat.digits 10 (v.natAbs / 100000000),
    fracDigits := (natFrac8 (v.natAbs % 100000000)).dropWhile (fun d => d = 0) }

/-- Modelled from the spec (§4.1): `fpdecimal.FromString` — a decimal
literal with at most 8 fractional digits; anything else is
*MalformedDecimal*. -/
def decFromStr (s : DecStr) : Option Int :=
  if s.fracDigits.length ≤ 8 ∧ (∀ d ∈ s.intDigits, d < 10) ∧
      (∀ d ∈ s.fracDigits, d < 10) then
    some (
      if s.neg then
        -((Nat.ofDigits 10 s.intDigits * 100000000 +
           Nat.ofDigits 10 s.fracDigits * 10 ^ (8 - s.fracDigits.length) : Nat) : Int)
      else
        ((Nat.ofDigits 10 s.intDigits * 100000000 +
          Nat.ofDigits 10 s.fracDigits * 10 ^ (8 - s.fracDigits.length) : Nat) : Int))
  else none

theorem ofDigits_replicate_zero (n : Nat) :
    Nat.ofDigits 10 (List.replicate n 0) = 0 := by
  induction n with
  | zero => rfl
  | succ n ih =>
    rw [List.replicate_succ, Nat.ofDigits_cons, ih]

theorem ofDigits_takeWhile_zero (l : List Nat) :
    Nat.ofDigits 10 (l.takeWhile (fun d => d = 0)) = 0 := by
  induction l with
  | nil => rfl
  | cons d l ih =>
    rw [List.takeWhile_cons]
    split
    · next h =>
      simp only [decide_eq_true_eq] at h
      rw [Nat.ofDigits_cons, ih, h]
    · rfl

theorem ofDigits_dropWhile_zero (l : List Nat) :
    Nat.ofDigits 10 (l.dropWhile (fun d => d = 0)) *
        10 ^ (l.length - (l.dropWhile (fun d => d = 0)).length) =
      Nat.ofDigits 10 l := by
  conv_rhs => rw [← List.takeWhile_append_dropWhile (fun d => decide (d = 0)) l]
  rw [Nat.ofDigits_append, ofDigits_takeWhile_zero]
  have hlen : (l.takeWhile (fun d => decide (d = 0))).length =
      l.length - (l.dropWhile (fun d => decide (d = 0))).length := by
    have h := congrArg List.length
      (List.takeWhile_append_dropWhile (fun d => decide (d = 0)) l)
    rw [List.length_append] at h
    omega
  rw [hlen]
  ring

theorem ofDigits_natFrac8 (fp : Nat) : Nat.ofDigits 10 (natFrac8 fp) = fp := by
  unfold natFrac8
  rw [Nat.ofDigits_append, Nat.ofDigits_digits, ofDigits_replicate_zero]
  ring

theorem digits_len_le_eight {fp : Nat} (h : fp < 100000000) :
    (Nat.digits 10 fp).length ≤ 8 := by
  by_cases hz : fp = 0
  · subst hz
    simp
  · by_contra hgt
    push_neg at hgt
    have hle := Nat.base_pow_length_digits_le 10 fp (by norm_num) hz
    have h9 : (10 : Nat) ^ 9 ≤ 10 ^ (Nat.digits 10 fp).length :=
      Nat.pow_le_pow_right (by norm_num) (by omega)
    have hcon : (10 : Nat) ^ 9 ≤ 10 * fp := le_trans h9 hle
    norm_num at hcon
    omega

theorem natFrac8_length {fp : Nat} (h : fp < 100000000) :
    (natFrac8 fp).length = 8 := by
  unfold natFrac8
  rw [List.length_append, List.length_replicate]
  have := digits_len_le_eight h
  omega

theorem natFrac8_digits_lt {fp : Nat} :
    ∀ d ∈ natFrac8 fp, d < 10 := by
  intro d hd
  unfold natFrac8 at hd
  rcases List.mem_append.mp hd with hd | hd
  · exact Nat.digits_lt_base (by norm_num) hd
  · rw [List.eq_of_mem_replicate hd]
    norm_num

/-- The fixed-point string form parses back to the value it was printed
from: `FromString ∘ String = id` on the modelled fpdecimal. -/
theorem decFromStr_decToStr (v : Int) : decFromStr (decToStr v) = some v := by
  unfold decFromStr decToStr
  have hfp : v.natAbs % 100000000 < 100000000 :=
    Nat.mod_lt _ (by norm_num)
  have hlen8 : (natFrac8 (v.natAbs % 100000000)).length = 8 := natFrac8_length hfp
  have hdroplen : ((natFrac8 (v.natAbs % 100000000)).dropWhile (fun d => d = 0)).length ≤ 8 := by
    have hsub : List.Sublist
        ((natFrac8 (v.natAbs % 100000000)).dropWhile (fun d => d = 0))
        (natFrac8 (v.natAbs % 100000000)) := List.dropWhile_sublist _
    have := hsub.length_le
    omega
  rw [if_pos]
  · have hval : Nat.ofDigits 10 (Nat.digits 10 (v.natAbs / 100000000)) * 100000000 +
        Nat.ofDigits 10 ((natFrac8 (v.natAbs % 100000000)).dropWhile (fun d => d = 0)) *
          10 ^ (8 - ((natFrac8 (v.natAbs % 100000000)).dropWhile (fun d => d = 0)).length) =
        v.natAbs := by
      rw [Nat.ofDigits_digits]
      have hdrop := ofDigits_dropWhile_zero (natFrac8 (v.natAbs % 100000000))
      rw [hlen8] at hdrop
      rw [hdrop, ofDigits_natFrac8]
      omega
    simp only
    rw [hval]
    by_cases hv : v < 0
    · rw [if_pos (by simpa using hv)]
      exact congrArg some (by omega)
    · rw [if_neg (by simpa using hv)]
      exact congrArg some (by omega)
  · refine ⟨hdroplen, ?_, ?_⟩
    · intro d hd
      exact Nat.digits_lt_base (by norm_num) hd
    · intro d hd
      exact natFrac8_digits_lt d ((List.dropWhile_sublist _).mem hd)

/-- Modelled from the spec (§6): the serialized engine trade payload —
`order_id`, `user_id`, `role`, `price` (string), `is_quote`,
`quantity` (string). -/
structure TradeJson where
  orderID : String
  userID : String
  role : Role
  isQuote : Bool
  price : DecStr
  quantity : DecStr
  deriving DecidableEq, Repr

/-- Modelled from the spec (§6): serialize one trade, decimals crossing
as fixed-point strings. -/
def tradeToJson (t : TradeOrder) : TradeJson :=
  { orderID := t.orderId, userID := t.userId, role := t.role,
    isQuote := t.isQuote, price := decToStr t.price,
    quantity := decToStr t.quantity }

/-- Modelled from the spec (§6): parse one trade payload back. -/
def tradeFromJson (tj : TradeJson) : Option TradeOrder :=
  match decFromStr tj.price, decFromStr tj.quantity with
  | some p, some q =>
    some { orderId := tj.orderID, userId := tj.userID, role := tj.role,
           isQuote := tj.isQuote, price := p, quantity := q }
  | _, _ => none

/-- Parse a trade list, failing if any element fails. -/
def tradesFromJson : List TradeJson → Option (List TradeOrder)
  | [] => some []
  | tj :: tjs =>
    match tradeFromJson tj, tradesFromJson tjs with
    | some t, some ts => some (t :: ts)
    | _, _ => none

theorem tradeFromJson_tradeToJson (t : TradeOrder) :
    tradeFromJson (tradeToJson t) = some t := by
  unfold tradeFromJson tradeToJson
  rw [decFromStr_decToStr, decFromStr_decToStr]

theorem tradesFromJson_map (ts : List TradeOrder) :
    tradesFromJson (ts.map tradeToJson) = some ts := by
  induction ts with
  | nil => rfl
  | cons t ts ih =>
    rw [List.map_cons]
    unfold tradesFromJson
    rw [tradeFromJson_tradeToJson, ih]

/-- Translated from receipt.go `Receipt.MarshalJSON`: the custom struct
with `userID`, `orderID`, the trades, and `FilledQty.String()`. -/
def Receipt.MarshalJSON (r : Receipt) :
    String × String × List TradeJson × DecStr :=
  (r.userID, r.orderID, r.trades.map tradeToJson, decToStr r.filledQty)

/-- Translated from receipt.go `Receipt.UnmarshalJSON`: copy the ids and
trades, parse `filledQty` with `fpdecimal.FromString`, error if it is
malformed. -/
def Receipt.UnmarshalJSON (j : String × String × List TradeJson × DecStr) :
    Option Receipt :=
  match tradesFromJson j.2.2.1, decFromStr j.2.2.2 with
  | some ts, some fq =>
    some { userID := j.1, orderID := j.2.1, trades := ts, filledQty := fq }
  | _, _ => none

/-- C10 — Receipt JSON round trip: marshalling a receipt and unmarshalling
the result restores the same `UserID`, `OrderID`, `Trades` and
`FilledQty` (the decimals crossing the boundary as fixed-point strings). -/
theorem receipt_json_roundtrip (r : Receipt) :
    Receipt.UnmarshalJSON (Receipt.MarshalJSON r) = some r := by
  unfold Receipt.UnmarshalJSON Receipt.MarshalJSON
  simp only
  rw [tradesFromJson_map, decFromStr_decToStr]

end Anomi
